import Mathlib

/-!
# Pipes and processes: a verification development

Shallow embedding of `pipes_processes1.c` (two-way exchange between a parent
`P1` and a child `P2` over two pipes) and of `pipes_processes3.c`
(`cat scores | grep <search_term> | sort` built from `pipe`, `fork`, `dup2`
and `execlp`).

* A C `char` is a `Char`.  A `char` array is the list of the bytes stored in
  it so far, from index 0; every byte behind them is indeterminate.  Reading a
  C string out of an array that holds no terminator among its stored bytes is
  a fault, as is a store past the declared size and a null pointer handed to
  `strcpy` or `strcat`.  A result `Except.ok` says that the C code runs
  without undefined behaviour and computes that value.
* A pipe is the list of bytes in flight; `read(fd, buf, n)` takes at most `n`.
  In the exchange each message is written by one `write` of at most 300
  bytes, and each `read` blocks until that `write` is done, so the steps of
  the two processes are composed in the order the data forces: `P1` writes,
  `P2` reads, computes and writes, `P1` reads and computes.
* The console is one stream of bytes shared by `P1` and `P2`: the child reads
  on from where the parent stopped.
* The orchestration code is a list of calls per process, from the start of
  `main` to the end of the process, for each combination of results the
  kernel can give (`pipe` and `execlp` succeed or fail, `fork` fails or
  returns in the parent or in the child).  Descriptors are written as in the
  source; a descriptor table gives them numbers and files.
-/

set_option autoImplicit false

deriving instance DecidableEq for Except

namespace PipesProcesses1

/-- The C string terminator. -/
def NUL : Char := Char.ofNat 0

/-- Undefined behaviour the C code can run into. -/
inductive Fault
  /-- A store past the declared size of a `char` array. -/
  | overflow
  /-- A string read that runs into bytes that were never stored. -/
  | unterminated
  /-- A null pointer handed to `strcpy` or `strcat`. -/
  | nullPointer
  deriving DecidableEq, Repr

/-- The bytes stored in a `char` array so far, from index 0. -/
abbrev Buffer := List Char

/-- A `char *`: null, or the bytes stored from the place it points to. -/
abbrev Ptr := Option Buffer

/-- The C string held at the start of stored bytes: all bytes before the
first terminator. -/
def cstr (buf : Buffer) : Except Fault (List Char) :=
  if NUL ∈ buf then .ok (buf.takeWhile (fun c => c != NUL)) else .error .unterminated

/-- Storing the string `s` and its terminator into an array of `cap` bytes. -/
def store (cap : Nat) (s : List Char) : Except Fault Buffer :=
  if s.length + 1 ≤ cap then .ok (s ++ [NUL]) else .error .overflow

/-- The test `isspace` of `<ctype.h>` in the C locale: space, `\t`, `\n`, `\v`, `\f`, `\r`. -/
def isspace (c : Char) : Bool :=
  c.toNat = 32 || (9 ≤ c.toNat && c.toNat ≤ 13)

/-- The conversion `%s` of `scanf`: skips white space, then takes bytes up to
the next white space or the end of input.  Gives the token (none at end of
input, where `scanf` stores nothing) and the unread rest of the console. -/
def scanfToken (stdin : List Char) : Option (List Char) × List Char :=
  let s := stdin.dropWhile isspace
  let tok := s.takeWhile (fun c => !isspace c)
  if tok = [] then (none, s) else (some tok, s.dropWhile (fun c => !isspace c))

/-- The call `scanf("%s", buf)` into an array of `cap` bytes that held `old`. -/
def scanf (cap : Nat) (old : Buffer) (stdin : List Char) : Except Fault (Buffer × List Char) :=
  match scanfToken stdin with
  | (none, rest) => .ok (old, rest)
  | (some tok, rest) => (store cap tok).map (fun b => (b, rest))

/-- The call `strcpy(dst, src)` with `dst` an array of `cap` bytes. -/
def strcpy (cap : Nat) (src : Ptr) : Except Fault Buffer :=
  match src with
  | none => .error .nullPointer
  | some b => (cstr b).bind (store cap)

/-- The call `strcat(dst, src)` with `dst` an array of `cap` bytes. -/
def strcat (cap : Nat) (dst : Buffer) (src : Ptr) : Except Fault Buffer :=
  (cstr dst).bind fun d =>
    match src with
    | none => .error .nullPointer
    | some b => (cstr b).bind fun s => store cap (d ++ s)

/-- The call `sprintf(dst, "%s|%s", a, b)` with `dst` an array of `cap` bytes. -/
def sprintf (cap : Nat) (a b : Buffer) : Except Fault Buffer :=
  (cstr a).bind fun x => (cstr b).bind fun y => store cap (x ++ '|' :: y)

/-- The bytes of `write(fd, buf, strlen(buf) + 1)`. -/
def writeString (buf : Buffer) : Except Fault (List Char) :=
  (cstr buf).map (fun s => s ++ [NUL])

/-- The bytes `read(fd, buf, n)` stores in `buf` when `pipe` is in flight. -/
def read (pipe : List Char) (n : Nat) : Buffer := pipe.take n

/-- One call of `strtok(_, "|")` on the text from the scan position to the
terminator: skips leading delimiters; at the end of the text the result is
null; else the token runs to the next delimiter, which is overwritten by a
terminator, and the scan position moves behind it. -/
def strtok (text : List Char) : Ptr × List Char :=
  let s := text.dropWhile (fun c => c == '|')
  if s = [] then (none, [])
  else (some (s.takeWhile (fun c => c != '|') ++ [NUL]),
        (s.dropWhile (fun c => c != '|')).drop 1)

/-- The array `char howardDomain[] = "howard.edu";` of line 32. -/
def howardDomain : Buffer := "howard.edu".toList ++ [NUL]

/-- The array `char bisonDomain[] = "gobison.org";` of line 33. -/
def bisonDomain : Buffer := "gobison.org".toList ++ [NUL]

/-- The arrays of the child and the bytes it sends. -/
structure Worker where
  receivedString : Buffer
  firstOutput : Buffer
  secondInput : Buffer
  combinedString : Buffer
  stdout : List Char
  sent : List Char
  deriving DecidableEq, Repr

/-- The child `P2` (lines 96-129): `pipe` is what `P1` wrote to `p1ToP2Pipe`,
`stdin` the unread console. -/
def worker (pipe stdin : List Char) : Except Fault Worker :=
  let receivedString := read pipe 100
  (strcpy 200 (some receivedString)).bind fun firstOutput =>
  (strcat 200 firstOutput (some howardDomain)).bind fun firstOutput =>
  (cstr firstOutput).bind fun shown =>
  (scanf 100 [] stdin).bind fun (secondInput, _) =>
  (sprintf 300 firstOutput secondInput).bind fun combinedString =>
  (writeString combinedString).bind fun sent =>
  .ok { receivedString := receivedString
        firstOutput := firstOutput
        secondInput := secondInput
        combinedString := combinedString
        stdout := "P2 Output: ".toList ++ shown ++ "\nEnter second string: ".toList
        sent := sent }

/-- The two pointers `parts[0]`, `parts[1]` of lines 74-76. -/
def splitCombined (combinedString : Buffer) : Except Fault (Ptr × Ptr) :=
  (cstr combinedString).map fun text =>
    let first := strtok text
    let second := strtok first.2
    (first.1, second.1)

/-- The arrays of the parent after the exchange. -/
structure Controller where
  combinedString : Buffer
  parts : Ptr × Ptr
  finalOutput : Buffer
  stdout : List Char
  deriving DecidableEq, Repr

/-- The parent `P1` from its `read` on (lines 69-87): `pipe` is what `P2`
wrote to `p2ToP1Pipe`. -/
def controllerFinish (pipe : List Char) : Except Fault Controller :=
  let combinedString := read pipe 300
  (splitCombined combinedString).bind fun parts =>
  (strcpy 400 parts.1).bind fun finalOutput =>
  (strcat 400 finalOutput parts.2).bind fun finalOutput =>
  (strcat 400 finalOutput (some bisonDomain)).bind fun finalOutput =>
  (cstr finalOutput).bind fun shown =>
  .ok { combinedString := combinedString
        parts := parts
        finalOutput := finalOutput
        stdout := "P1 Final Output: ".toList ++ shown ++ "\n".toList }

/-- One run of the exchange. -/
structure Exchange where
  userInput : Buffer
  worker : Worker
  controller : Controller
  deriving DecidableEq, Repr

/-- The exchange of `main`: `P1` reads `userInput` from the console (line 47),
writes it to `p1ToP2Pipe` (line 66), `P2` runs on it and on the rest of the
console, and `P1` finishes on what `P2` wrote to `p2ToP1Pipe`. -/
def main (stdin : List Char) : Except Fault Exchange :=
  (scanf 100 [] stdin).bind fun (userInput, console) =>
  (writeString userInput).bind fun p1ToP2 =>
  (worker p1ToP2 console).bind fun w =>
  (controllerFinish w.sent).bind fun c =>
  .ok { userInput := userInput, worker := w, controller := c }

/-- The string `P1` prints as its final output. -/
def finalOutput (stdin : List Char) : Except Fault (List Char) :=
  (main stdin).bind fun r => cstr r.controller.finalOutput

/-- The string `P2` prints as its output. -/
def firstOutput (stdin : List Char) : Except Fault (List Char) :=
  (main stdin).bind fun r => cstr r.worker.firstOutput

end PipesProcesses1

/-! ## Descriptors, system calls and their effect on a descriptor table -/

namespace Sys

/-- The `int[2]` arrays that hold pipe descriptors in the two programs. -/
inductive PipeVar
  | p1ToP2Pipe
  | p2ToP1Pipe
  | pipefd1
  | pipefd2
  deriving DecidableEq, Repr

/-- A descriptor as the source writes it. -/
inductive Desc
  | STDIN_FILENO
  | STDOUT_FILENO
  /-- The element `v[0]`. -/
  | readEnd (v : PipeVar)
  /-- The element `v[1]`. -/
  | writeEnd (v : PipeVar)
  deriving DecidableEq, Repr

/-- What an open descriptor refers to. -/
inductive File
  /-- A file the program found open at descriptor `fd` when it started. -/
  | inherited (fd : Nat)
  | pipeRead (v : PipeVar)
  | pipeWrite (v : PipeVar)
  deriving DecidableEq, Repr

/-- The three results of `fork()`: `-1`, a positive process id, `0`. -/
inductive ForkResult
  | failed
  | parent
  | child
  deriving DecidableEq, Repr

/-- One call of the orchestration code, with the result the kernel gave. -/
inductive Call
  | pipe (v : PipeVar) (ok : Bool)
  | fork (r : ForkResult)
  | close (d : Desc)
  | dup2 (oldfd newfd : Desc)
  | read (d : Desc)
  | write (d : Desc)
  | scanf
  | printf (text : String)
  | fprintfStderr (text : String)
  | perror (text : String)
  | execlp (file : String) (argv : List String) (ok : Bool)
  | wait
  | exit (status : Nat)
  /-- A `return` from `main`. -/
  | ret (status : Nat)
  deriving DecidableEq, Repr

/-- Modelled from the spec: `EXIT_FAILURE` is declared in `<stdlib.h>`, which
is not part of the repository; the spec calls it a non-zero exit status, and
its value on POSIX systems is 1. -/
def EXIT_FAILURE : Nat := 1

/-- The open descriptors of a process. -/
abbrev Table := List (Nat × File)

/-- The file behind descriptor `fd`. -/
def Table.file (t : Table) (fd : Nat) : Option File :=
  match t with
  | [] => none
  | e :: rest => if e.1 = fd then some e.2 else Table.file rest fd

/-- The table without descriptor `fd`. -/
def Table.without (t : Table) (fd : Nat) : Table :=
  t.filter (fun e => e.1 ≠ fd)

/-- The lowest number that is not in `used`. -/
def lowestFree (used : List Nat) : Nat :=
  ((List.range (used.length + 1)).find? (fun n => n ∉ used)).getD used.length

/-- Descriptors and the contents of the `int[2]` arrays of one process. -/
structure Fds where
  table : Table
  vars : PipeVar → Option (Nat × Nat)

/-- A process that starts with the descriptors `inherited` open and all
`int[2]` arrays unassigned. -/
def Fds.start (inherited : List Nat) : Fds :=
  { table := inherited.map (fun fd => (fd, File.inherited fd))
    vars := fun _ => none }

/-- The number a descriptor expression stands for. -/
def Fds.resolve (s : Fds) : Desc → Option Nat
  | .STDIN_FILENO => some 0
  | .STDOUT_FILENO => some 1
  | .readEnd v => (s.vars v).map Prod.fst
  | .writeEnd v => (s.vars v).map Prod.snd

/-- The effect of one call on the descriptors of the calling process.
`pipe` takes the two lowest free numbers; `fork` leaves the caller as it is,
and the child starts as a copy; `execlp` keeps all descriptors open. -/
def Fds.step (s : Fds) : Call → Fds
  | .pipe v true =>
      let r := lowestFree (s.table.map Prod.fst)
      let w := lowestFree (r :: s.table.map Prod.fst)
      { table := (r, File.pipeRead v) :: (w, File.pipeWrite v) :: s.table
        vars := fun u => if u = v then some (r, w) else s.vars u }
  | .close d =>
      match s.resolve d with
      | some fd => { s with table := s.table.without fd }
      | none => s
  | .dup2 oldfd newfd =>
      match s.resolve oldfd, s.resolve newfd with
      | some o, some n =>
          match s.table.file o with
          | some f => if o = n then s else { s with table := (n, f) :: s.table.without n }
          | none => s
      | _, _ => s
  | _ => s

/-- The descriptor numbers stored in the array `v`. -/
def Fds.stored (s : Fds) (v : PipeVar) : List Nat :=
  match s.vars v with
  | some (r, w) => [r, w]
  | none => []

/-- The descriptor numbers stored in the `int[2]` arrays of a process: its
pipe descriptors. -/
def Fds.pipeDescriptors (s : Fds) : List Nat :=
  s.stored .p1ToP2Pipe ++ s.stored .p2ToP1Pipe ++ s.stored .pipefd1 ++ s.stored .pipefd2

/-- Whether a file is an end of a pipe. -/
def File.isPipeEnd : File → Bool
  | .inherited _ => false
  | .pipeRead _ => true
  | .pipeWrite _ => true

/-- The descriptors of a process after the calls `calls`. -/
def Fds.run (s : Fds) (calls : List Call) : Fds :=
  calls.foldl Fds.step s

/-- The pipe ends that the calls close, as the source names them. -/
def closedEnds : List Call → List Desc
  | [] => []
  | .close d :: rest => d :: closedEnds rest
  | _ :: rest => closedEnds rest

/-- The file behind the descriptor at each `close` of a process that starts
in state `s`, in order; none where the descriptor is not open. -/
def closedFiles (s : Fds) : List Call → List (Option File)
  | [] => []
  | .close d :: rest =>
      (s.resolve d).bind s.table.file :: closedFiles (s.step (.close d)) rest
  | c :: rest => closedFiles (s.step c) rest

/-- Whether a descriptor expression is an element of an `int[2]` array. -/
def Desc.isArrayElement : Desc → Bool
  | .readEnd _ => true
  | .writeEnd _ => true
  | _ => false

/-- Whether a call allocates a pipe. -/
def Call.isPipe : Call → Bool
  | .pipe _ _ => true
  | _ => false

/-- Whether a call duplicates the process. -/
def Call.isFork : Call → Bool
  | .fork _ => true
  | _ => false

/-- Whether a call acts on descriptors or processes: `pipe`, `fork`, `close`,
`dup2`, `execlp`. -/
def Call.isOrchestration : Call → Bool
  | .pipe _ _ => true
  | .fork _ => true
  | .close _ => true
  | .dup2 _ _ => true
  | .execlp _ _ _ => true
  | _ => false

/-- The descriptors a process has at each of its `fork` calls, in order: what
the child of that `fork` starts with. -/
def atForks (s : Fds) : List Call → List Fds
  | [] => []
  | .fork r :: rest => s :: atForks (s.step (.fork r)) rest
  | c :: rest => atForks (s.step c) rest

/-- The calls a process makes before its first `fork`. -/
def beforeFork (calls : List Call) : List Call :=
  calls.takeWhile (fun c => !c.isFork)

/-- The calls a process makes after its first `fork`. -/
def afterFork (calls : List Call) : List Call :=
  (calls.dropWhile (fun c => !c.isFork)).drop 1

end Sys

/-! ## `pipes_processes1.c`: the calls of `main` -/

namespace PipesProcesses1

open Sys

/-- The answers of the kernel that decide the path of `main`. -/
structure Kernel1 where
  pipe1 : Bool
  pipe2 : Bool
  fork : ForkResult
  deriving DecidableEq, Repr

/-- The calls of `main` (lines 38-131), in the order one process makes them.
The second `pipe` is not called when the first fails (`||`). -/
def mainCalls (k : Kernel1) : List Call :=
  if !k.pipe1 then
    [.pipe .p1ToP2Pipe false, .fprintfStderr "Pipe creation failed\n", .ret 1]
  else if !k.pipe2 then
    [.pipe .p1ToP2Pipe true, .pipe .p2ToP1Pipe false,
     .fprintfStderr "Pipe creation failed\n", .ret 1]
  else
    [.pipe .p1ToP2Pipe true, .pipe .p2ToP1Pipe true,
     .printf "Enter first string: ", .scanf] ++
    match k.fork with
    | .failed => [.fork .failed, .fprintfStderr "Fork failed\n", .ret 1]
    | .parent =>
        [.fork .parent,
         .close (.readEnd .p1ToP2Pipe),
         .close (.writeEnd .p2ToP1Pipe),
         .write (.writeEnd .p1ToP2Pipe),
         .close (.writeEnd .p1ToP2Pipe),
         .read (.readEnd .p2ToP1Pipe),
         .printf "P1 Final Output: %s\n",
         .close (.readEnd .p2ToP1Pipe),
         .wait,
         .ret 0]
    | .child =>
        [.fork .child,
         .close (.writeEnd .p1ToP2Pipe),
         .close (.readEnd .p2ToP1Pipe),
         .read (.readEnd .p1ToP2Pipe),
         .close (.readEnd .p1ToP2Pipe),
         .printf "P2 Output: %s\n",
         .printf "Enter second string: ",
         .scanf,
         .write (.writeEnd .p2ToP1Pipe),
         .close (.writeEnd .p2ToP1Pipe),
         .exit 0]

end PipesProcesses1

/-! ## `pipes_processes3.c` -/

namespace PipesProcesses3

open Sys

/-- The answers of the kernel that decide the path of `main`. -/
structure Kernel where
  pipe1 : Bool
  fork1 : ForkResult
  pipe2 : Bool
  fork2 : ForkResult
  exec : Bool
  deriving DecidableEq, Repr

/-- The lines 75-76, 95-96, 109-110: reached only when `execlp` returns. -/
def afterExec (ok : Bool) (text : String) : List Call :=
  if ok then [] else [.perror text, .exit EXIT_FAILURE]

/-- The grandchild (lines 63-76). -/
def sortBranch (k : Kernel) : List Call :=
  [.close (.readEnd .pipefd1),
   .close (.writeEnd .pipefd1),
   .close (.writeEnd .pipefd2),
   .dup2 (.readEnd .pipefd2) .STDIN_FILENO,
   .close (.readEnd .pipefd2),
   .execlp "sort" ["sort"] k.exec] ++ afterExec k.exec "execlp sort"

/-- The first child after its `fork` (lines 78-96). -/
def grepBranch (argv : List String) (k : Kernel) : List Call :=
  [.close (.writeEnd .pipefd1),
   .close (.readEnd .pipefd2),
   .dup2 (.readEnd .pipefd1) .STDIN_FILENO,
   .dup2 (.writeEnd .pipefd2) .STDOUT_FILENO,
   .close (.readEnd .pipefd1),
   .close (.writeEnd .pipefd2),
   .execlp "grep" ["grep", argv.getD 1 ""] k.exec] ++ afterExec k.exec "execlp grep"

/-- The parent (lines 99-110). -/
def catBranch (k : Kernel) : List Call :=
  [.close (.readEnd .pipefd1),
   .dup2 (.writeEnd .pipefd1) .STDOUT_FILENO,
   .close (.writeEnd .pipefd1),
   .execlp "cat" ["cat", "scores"] k.exec] ++ afterExec k.exec "execlp cat"

/-- The calls of `main`, in the order one process makes them; `argv` holds
`argc` strings.  No path reaches the `return 0` of line 113. -/
def main (argv : List String) (k : Kernel) : List Call :=
  if argv.length ≠ 2 then
    [.fprintfStderr ("Usage: " ++ argv.headD "(null)" ++ " <search_term>\n"),
     .exit EXIT_FAILURE]
  else if !k.pipe1 then
    [.pipe .pipefd1 false, .perror "pipe1", .exit EXIT_FAILURE]
  else
    .pipe .pipefd1 true ::
    match k.fork1 with
    | .failed => [.fork .failed, .perror "fork1", .exit EXIT_FAILURE]
    | .child =>
        .fork .child ::
        if !k.pipe2 then
          [.pipe .pipefd2 false, .perror "pipe2", .exit EXIT_FAILURE]
        else
          .pipe .pipefd2 true ::
          match k.fork2 with
          | .failed => [.fork .failed, .perror "fork2", .exit EXIT_FAILURE]
          | .child => .fork .child :: sortBranch k
          | .parent => .fork .parent :: grepBranch argv k
    | .parent => .fork .parent :: catBranch k

/-- The contents of the arrays once both pipes exist, when the first `pipe`
returned `r1`, `w1` and the second `r2`, `w2`. -/
def bothVars (r1 w1 r2 w2 : Nat) : PipeVar → Option (Nat × Nat) :=
  fun u => if u = .pipefd2 then some (r2, w2) else if u = .pipefd1 then some (r1, w1) else none

/-- The contents of the arrays in the parent, which calls `pipe` once. -/
def firstVar (r1 w1 : Nat) : PipeVar → Option (Nat × Nat) :=
  fun u => if u = .pipefd1 then some (r1, w1) else none

/-- The three roles of the pipeline. -/
inductive Stage
  | stage1
  | stage2
  | stage3
  deriving DecidableEq, Repr

/-- The kernel answers under which a process becomes the given stage and
reaches its `execlp`, which succeeds or not as `exec` says. -/
def Stage.kernel (exec : Bool) : Stage → Kernel
  | .stage1 => ⟨true, .parent, true, .parent, exec⟩
  | .stage2 => ⟨true, .child, true, .parent, exec⟩
  | .stage3 => ⟨true, .child, true, .child, exec⟩

/-- The descriptors of a stage when it has made all its calls, for a program
started with the descriptors `inherited` open. -/
def stageFds (inherited : List Nat) (argv : List String) (exec : Bool) (s : Stage) : Fds :=
  (Fds.start inherited).run (main argv (s.kernel exec))

/-- The program a process runs after its calls: the last successful `execlp`. -/
def image : List Call → Option (String × List String)
  | [] => none
  | .execlp file argv true :: _ => some (file, argv)
  | _ :: rest => image rest

/-- One line of text. -/
abbrev Line := List Char

/-- Modelled from the spec: the three external programs, which are not part
of the repository.  `cat scores` emits the lines of the input source,
`grep term` keeps the lines that contain the search term, `sort` sorts the
lines.  Each maps what it reads on standard input to what it writes on
standard output. -/
def programOf (scores : List Line) : String × List String → Option (List Line → List Line)
  | ("cat", [_, "scores"]) => some (fun _ => scores)
  | ("grep", [_, term]) => some (fun lines => lines.filter (fun l => term.toList <:+: l))
  | ("sort", [_]) => some (fun lines => lines.insertionSort (fun a b => a ≤ b))
  | _ => none

/-- Whether a table has a descriptor open on the given file. -/
def holds (t : Table) (f : File) : Bool :=
  t.any (fun e => e.2 = f)

/-- The four pipe ends of the pipeline that a table holds: both ends of
`pipefd1`, then both ends of `pipefd2`. -/
def heldEnds (t : Table) : List Bool :=
  [holds t (.pipeRead .pipefd1), holds t (.pipeWrite .pipefd1),
   holds t (.pipeRead .pipefd2), holds t (.pipeWrite .pipefd2)]

/-- The four pipe ends of the exchange that a table holds: both ends of
`p1ToP2Pipe`, then both ends of `p2ToP1Pipe`. -/
def heldEnds1 (t : Table) : List Bool :=
  [holds t (.pipeRead .p1ToP2Pipe), holds t (.pipeWrite .p1ToP2Pipe),
   holds t (.pipeRead .p2ToP1Pipe), holds t (.pipeWrite .p2ToP1Pipe)]

/-- Modelled from the spec: what a reader gets from its standard input.  The
writer has its standard output on the write end of some pipe and emits `out`;
the reader has its standard input on the read end of the same pipe; the read
reaches end-of-stream only if no process but the writer holds a copy of the
write end (spec 4.1, 5).  Otherwise there is no result. -/
def feed (writer reader : Table) (others : List Table) (out : List Line) :
    Option (List Line) :=
  match writer.file 1, reader.file 0 with
  | some (.pipeWrite u), some (.pipeRead v) =>
      if u = v ∧ (reader :: others).all (fun t => !holds t (.pipeWrite v)) then some out
      else none
  | _, _ => none

/-- Modelled from the spec: the lines that reach the standard output the
program was started with, when the three stages run their programs. -/
def pipelineOutput (scores : List Line) (inherited : List Nat) (argv : List String) :
    Option (List Line) :=
  let fds := fun s => (stageFds inherited argv true s).table
  let prog := fun s => (image (main argv (Stage.kernel true s))).bind (programOf scores)
  (prog .stage1).bind fun cat =>
  (prog .stage2).bind fun grep =>
  (prog .stage3).bind fun sort =>
  (feed (fds .stage1) (fds .stage2) [fds .stage3] (cat [])).bind fun in2 =>
  (feed (fds .stage2) (fds .stage3) [fds .stage1] (grep in2)).bind fun in3 =>
  if (fds .stage3).file 1 = some (.inherited 1) then some (sort in3) else none

end PipesProcesses3


namespace PipesProcesses1

theorem takeWhile_append_stop {p : Char → Bool} (x y : List Char) (c : Char)
    (hx : ∀ a ∈ x, p a = true) (hc : p c = false) :
    (x ++ c :: y).takeWhile p = x := by
  induction x with
  | nil => simp [List.takeWhile, hc]
  | cons a t ih =>
    have ha : p a = true := hx a (List.mem_cons_self a t)
    have ht : ∀ b ∈ t, p b = true := fun b hb => hx b (List.mem_cons_of_mem a hb)
    simp [List.takeWhile, ha, ih ht]

theorem dropWhile_append_stop {p : Char → Bool} (x y : List Char) (c : Char)
    (hx : ∀ a ∈ x, p a = true) (hc : p c = false) :
    (x ++ c :: y).dropWhile p = c :: y := by
  induction x with
  | nil => simp [List.dropWhile, hc]
  | cons a t ih =>
    have ha : p a = true := hx a (List.mem_cons_self a t)
    have ht : ∀ b ∈ t, p b = true := fun b hb => hx b (List.mem_cons_of_mem a hb)
    simp [List.dropWhile, ha, ih ht]

theorem takeWhile_all {p : Char → Bool} (x : List Char) (hx : ∀ a ∈ x, p a = true) :
    x.takeWhile p = x := by
  induction x with
  | nil => rfl
  | cons a t ih =>
    have ha : p a = true := hx a (List.mem_cons_self a t)
    have ht : ∀ b ∈ t, p b = true := fun b hb => hx b (List.mem_cons_of_mem a hb)
    simp [List.takeWhile, ha, ih ht]

theorem dropWhile_all {p : Char → Bool} (x : List Char) (hx : ∀ a ∈ x, p a = true) :
    x.dropWhile p = [] := by
  induction x with
  | nil => rfl
  | cons a t ih =>
    have ha : p a = true := hx a (List.mem_cons_self a t)
    have ht : ∀ b ∈ t, p b = true := fun b hb => hx b (List.mem_cons_of_mem a hb)
    simp [List.dropWhile, ha, ih ht]

theorem ne_of_not_mem {c : Char} {x : List Char} (h : c ∉ x) :
    ∀ a ∈ x, (a != c) = true := by
  intro a ha
  simp only [bne_iff_ne, ne_eq]
  rintro rfl
  exact h ha

/-- A string without terminator, stored with its terminator and followed by
anything, reads back as itself. -/
theorem cstr_terminated (s t : List Char) (h : NUL ∉ s) :
    cstr (s ++ NUL :: t) = .ok s := by
  unfold cstr
  rw [if_pos (by simp), takeWhile_append_stop s t NUL (ne_of_not_mem h) (by simp)]

theorem cstr_store (s : List Char) (h : NUL ∉ s) : cstr (s ++ [NUL]) = .ok s :=
  cstr_terminated s [] h

/-- The text before the first `c` holds no `c`. -/
theorem not_mem_takeWhile (c : Char) (x : List Char) :
    c ∉ x.takeWhile (fun a => a != c) := by
  intro h
  have := List.mem_takeWhile_imp h
  simp at this

theorem takeWhile_subset (p : Char → Bool) (x : List Char) :
    ∀ a ∈ x.takeWhile p, a ∈ x := by
  induction x with
  | nil => simp
  | cons c r ih =>
    intro a h
    by_cases hc : p c = true
    · simp only [List.takeWhile, hc, List.mem_cons] at h ⊢
      exact h.imp id (ih a)
    · simp [List.takeWhile, hc] at h

theorem takeWhile_length_le (p : Char → Bool) (x : List Char) :
    (x.takeWhile p).length ≤ x.length := by
  induction x with
  | nil => simp
  | cons c r ih =>
    by_cases hc : p c = true
    · simp only [List.takeWhile, hc, List.length_cons]
      omega
    · simp [List.takeWhile, hc]

/-- A stored token followed by its terminator reads back as the text before
the first terminator of the token. -/
theorem cstr_token (b t : List Char) :
    ∃ u, b ++ NUL :: t = b.takeWhile (fun c => c != NUL) ++ NUL :: u := by
  induction b with
  | nil => exact ⟨t, rfl⟩
  | cons a r ih =>
    by_cases h : a = NUL
    · subst h
      exact ⟨r ++ NUL :: t, by simp [List.takeWhile]⟩
    · obtain ⟨u, hu⟩ := ih
      have hb : (a != NUL) = true := by simpa using h
      refine ⟨u, ?_⟩
      simp only [List.takeWhile, hb, List.cons_append]
      rw [hu]


theorem scanfToken_some {stdin a rest : List Char}
    (h : scanfToken stdin = (some a, rest)) : a ≠ [] := by
  unfold scanfToken at h
  simp only at h
  split at h
  · simp at h
  · rename_i hne
    simp only [Prod.mk.injEq, Option.some.injEq] at h
    rw [← h.1]
    exact hne

theorem scanf_some {stdin a rest : List Char} (old : Buffer)
    (h : scanfToken stdin = (some a, rest)) (hlen : a.length ≤ 99) :
    scanf 100 old stdin = .ok (a ++ [NUL], rest) := by
  unfold scanf
  rw [h]
  simp only [store]
  rw [if_pos (by omega)]
  rfl

theorem strtok_first (x y : List Char) (hx : '|' ∉ x) (hne : x ≠ []) :
    strtok (x ++ '|' :: y) = (some (x ++ [NUL]), y) := by
  obtain ⟨a, t, rfl⟩ := List.exists_cons_of_ne_nil hne
  have ha : (a == '|') = false := by
    simp only [beq_eq_false_iff_ne, ne_eq]
    rintro rfl
    exact hx (List.mem_cons_self _ _)
  unfold strtok
  have hd : (a :: t ++ '|' :: y).dropWhile (fun c => c == '|') = a :: t ++ '|' :: y := by
    simp [List.dropWhile, ha]
  simp only [hd]
  rw [if_neg (by simp)]
  rw [takeWhile_append_stop (a :: t) y '|' (ne_of_not_mem hx) (by simp),
    dropWhile_append_stop (a :: t) y '|' (ne_of_not_mem hx) (by simp)]
  rfl

theorem strtok_last (y : List Char) (hy : '|' ∉ y) (hne : y ≠ []) :
    strtok y = (some (y ++ [NUL]), []) := by
  obtain ⟨a, t, rfl⟩ := List.exists_cons_of_ne_nil hne
  have ha : (a == '|') = false := by
    simp only [beq_eq_false_iff_ne, ne_eq]
    rintro rfl
    exact hy (List.mem_cons_self _ _)
  unfold strtok
  have hd : (a :: t).dropWhile (fun c => c == '|') = a :: t := by
    simp [List.dropWhile, ha]
  simp only [hd]
  rw [if_neg (by simp)]
  rw [takeWhile_all (a :: t) (ne_of_not_mem hy), dropWhile_all (a :: t) (ne_of_not_mem hy)]
  rfl

theorem howard_not_mem (c : Char) (h : c = NUL ∨ c = '|') : c ∉ "howard.edu".toList := by
  rcases h with rfl | rfl <;> decide

theorem bison_not_mem : NUL ∉ "gobison.org".toList := by decide

theorem read_terminated (a t : List Char) (n : Nat) (h : a.length < n) :
    ∃ u, read (a ++ NUL :: t) n = a ++ NUL :: u := by
  refine ⟨t.take (n - a.length - 1), ?_⟩
  unfold read
  rw [List.take_append_eq_append_take, List.take_of_length_le (by omega)]
  obtain ⟨k, hk⟩ : ∃ k, n - a.length = k + 1 := ⟨n - a.length - 1, by omega⟩
  rw [hk, List.take_succ_cons]
  simp

theorem strcpy_terminated (cap : Nat) (s t : List Char) (h : NUL ∉ s)
    (hlen : s.length + 1 ≤ cap) : strcpy cap (some (s ++ NUL :: t)) = .ok (s ++ [NUL]) := by
  simp [strcpy, cstr_terminated s t h, Except.bind, store, hlen]

theorem strcat_terminated (cap : Nat) (d s t : List Char) (hd : NUL ∉ d) (hs : NUL ∉ s)
    (hlen : d.length + s.length + 1 ≤ cap) :
    strcat cap (d ++ [NUL]) (some (s ++ NUL :: t)) = .ok (d ++ s ++ [NUL]) := by
  simp [strcat, cstr_store d hd, cstr_terminated s t hs, Except.bind, store, hlen]

/-- What `P2` does on a terminated first string and a second token. -/
theorem worker_eq (a b t rest rest2 : List Char)
    (h2 : scanfToken rest = (some b, rest2))
    (ha : a.length ≤ 99) (hb : b.length ≤ 99) (haN : NUL ∉ a) :
    worker (a ++ NUL :: t) rest = .ok
      { receivedString := read (a ++ NUL :: t) 100
        firstOutput := a ++ "howard.edu".toList ++ [NUL]
        secondInput := b ++ [NUL]
        combinedString :=
          a ++ "howard.edu".toList ++ '|' :: b.takeWhile (fun c => c != NUL) ++ [NUL]
        stdout := "P2 Output: ".toList ++ (a ++ "howard.edu".toList)
                    ++ "\nEnter second string: ".toList
        sent := a ++ "howard.edu".toList ++ '|' :: b.takeWhile (fun c => c != NUL) ++ [NUL] } := by
  obtain ⟨u, hu⟩ := read_terminated a t 100 (by omega)
  obtain ⟨v, hv⟩ := cstr_token b []
  have hyN : NUL ∉ b.takeWhile (fun c => c != NUL) := not_mem_takeWhile NUL b
  have hylen : (b.takeWhile (fun c => c != NUL)).length ≤ b.length :=
    takeWhile_length_le _ _
  have hh : NUL ∉ "howard.edu".toList := howard_not_mem NUL (Or.inl rfl)
  have hlenH : "howard.edu".toList.length = 10 := rfl
  have hfo : NUL ∉ a ++ "howard.edu".toList := by
    simp only [List.mem_append, not_or]; exact ⟨haN, hh⟩
  have hcomb : NUL ∉ a ++ "howard.edu".toList ++ '|' :: b.takeWhile (fun c => c != NUL) := by
    simp only [List.mem_append, List.mem_cons, not_or]
    exact ⟨⟨haN, hh⟩, by decide, hyN⟩
  unfold worker
  simp only []
  rw [hu, strcpy_terminated 200 a u haN (by omega)]
  simp only [Except.bind]
  have e1 : strcat 200 (a ++ [NUL]) (some howardDomain) = .ok (a ++ "howard.edu".toList ++ [NUL]) := by
    unfold howardDomain
    exact strcat_terminated 200 a _ [] haN hh (by rw [hlenH]; omega)
  rw [e1]
  simp only [cstr_store _ hfo, scanf_some [] h2 hb]
  have e2 : sprintf 300 (a ++ "howard.edu".toList ++ [NUL]) (b ++ [NUL])
      = .ok (a ++ "howard.edu".toList ++ '|' :: b.takeWhile (fun c => c != NUL) ++ [NUL]) := by
    simp only [sprintf, cstr_store _ hfo, Except.bind]
    rw [hv, cstr_terminated _ v hyN]
    simp only [store]
    rw [if_pos (by simp only [List.length_append, List.length_cons, hlenH]; omega)]
  simp only [e2]
  have e3 : writeString
        (a ++ "howard.edu".toList ++ '|' :: b.takeWhile (fun c => c != NUL) ++ [NUL])
      = .ok (a ++ "howard.edu".toList ++ '|' :: b.takeWhile (fun c => c != NUL) ++ [NUL]) := by
    simp only [writeString, cstr_store _ hcomb, Except.map]
  simp only [e3]

theorem read_whole (m : List Char) (n : Nat) (h : m.length ≤ n) : read m n = m := by
  unfold read
  exact List.take_of_length_le h

/-- What `P1` does on a well-framed message. -/
theorem controllerFinish_eq (x b : List Char)
    (hx : x.length ≤ 109) (hb : b.length ≤ 99) (hxne : x ≠ []) (hbne : b ≠ [])
    (hxN : NUL ∉ x) (hbN : NUL ∉ b) (hxD : '|' ∉ x) (hbD : '|' ∉ b) :
    controllerFinish (x ++ '|' :: b ++ [NUL]) = .ok
      { combinedString := x ++ '|' :: b ++ [NUL]
        parts := (some (x ++ [NUL]), some (b ++ [NUL]))
        finalOutput := x ++ b ++ "gobison.org".toList ++ [NUL]
        stdout := "P1 Final Output: ".toList ++ (x ++ b ++ "gobison.org".toList)
                    ++ "\n".toList } := by
  have hlenB : "gobison.org".toList.length = 11 := rfl
  have hcomb : NUL ∉ x ++ '|' :: b := by
    simp only [List.mem_append, List.mem_cons, not_or]
    exact ⟨hxN, by decide, hbN⟩
  have hxb : NUL ∉ x ++ b := by
    simp only [List.mem_append, not_or]; exact ⟨hxN, hbN⟩
  have hfin : NUL ∉ x ++ b ++ "gobison.org".toList := by
    simp only [List.mem_append, not_or]; exact ⟨⟨hxN, hbN⟩, bison_not_mem⟩
  have hsplit : splitCombined (x ++ '|' :: b ++ [NUL])
      = .ok (some (x ++ [NUL]), some (b ++ [NUL])) := by
    simp only [splitCombined, cstr_store _ hcomb, Except.map, strtok_first x b hxD hxne,
      strtok_last b hbD hbne]
  unfold controllerFinish
  simp only []
  rw [read_whole _ 300 (by simp only [List.length_append, List.length_cons, List.length_nil]; omega),
    hsplit]
  simp only [Except.bind]
  rw [strcpy_terminated 400 x [] hxN (by omega)]
  simp only []
  rw [strcat_terminated 400 x b [] hxN hbN (by omega)]
  simp only []
  have e1 : strcat 400 (x ++ b ++ [NUL]) (some bisonDomain)
      = .ok (x ++ b ++ "gobison.org".toList ++ [NUL]) := by
    unfold bisonDomain
    exact strcat_terminated 400 (x ++ b) _ [] hxb bison_not_mem
      (by simp only [List.length_append, hlenB]; omega)
  rw [e1]
  simp only [cstr_store _ hfin]

/-- The whole exchange on two well-formed tokens. -/
theorem main_eq (stdin a rest b rest2 : List Char)
    (h1 : scanfToken stdin = (some a, rest)) (h2 : scanfToken rest = (some b, rest2))
    (ha : a.length ≤ 99) (hb : b.length ≤ 99)
    (haN : NUL ∉ a) (hbN : NUL ∉ b) (haD : '|' ∉ a) (hbD : '|' ∉ b) :
    main stdin = .ok
      { userInput := a ++ [NUL]
        worker :=
          { receivedString := read (a ++ NUL :: []) 100
            firstOutput := a ++ "howard.edu".toList ++ [NUL]
            secondInput := b ++ [NUL]
            combinedString := a ++ "howard.edu".toList ++ '|' :: b ++ [NUL]
            stdout := "P2 Output: ".toList ++ (a ++ "howard.edu".toList)
                        ++ "\nEnter second string: ".toList
            sent := a ++ "howard.edu".toList ++ '|' :: b ++ [NUL] }
        controller :=
          { combinedString := a ++ "howard.edu".toList ++ '|' :: b ++ [NUL]
            parts := (some (a ++ "howard.edu".toList ++ [NUL]), some (b ++ [NUL]))
            finalOutput := a ++ "howard.edu".toList ++ b ++ "gobison.org".toList ++ [NUL]
            stdout := "P1 Final Output: ".toList
                        ++ (a ++ "howard.edu".toList ++ b ++ "gobison.org".toList)
                        ++ "\n".toList } } := by
  have hlenH : "howard.edu".toList.length = 10 := rfl
  have hfo : NUL ∉ a ++ "howard.edu".toList := by
    simp only [List.mem_append, not_or]; exact ⟨haN, howard_not_mem NUL (Or.inl rfl)⟩
  have hfoD : '|' ∉ a ++ "howard.edu".toList := by
    simp only [List.mem_append, not_or]; exact ⟨haD, howard_not_mem '|' (Or.inr rfl)⟩
  unfold main
  rw [scanf_some [] h1 ha]
  simp only [Except.bind, writeString, cstr_store _ haN, Except.map]
  rw [worker_eq a b [] rest rest2 h2 ha hb haN, takeWhile_all b (ne_of_not_mem hbN)]
  simp only []
  rw [controllerFinish_eq (a ++ "howard.edu".toList) b
    (by simp only [List.length_append, hlenH]; omega) hb (by simp [hlenH])
    (scanfToken_some h2) hfo hbN hfoD hbD]

theorem final_not_mem (a b : List Char) (haN : NUL ∉ a) (hbN : NUL ∉ b) :
    NUL ∉ a ++ "howard.edu".toList ∧
      NUL ∉ a ++ "howard.edu".toList ++ b ++ "gobison.org".toList := by
  simp only [List.mem_append, not_or]
  exact ⟨⟨haN, howard_not_mem NUL (Or.inl rfl)⟩,
    ⟨⟨haN, howard_not_mem NUL (Or.inl rfl)⟩, hbN⟩, bison_not_mem⟩

/-- One call of `strtok`: null with nothing left to scan, or a non-empty
token taken from the text, with the token and the text left to scan no longer
than the text. -/
theorem strtok_cases (text : List Char) :
    strtok text = (none, []) ∨
      ∃ tok, tok ≠ [] ∧ strtok text = (some (tok ++ [NUL]), (strtok text).2)
        ∧ (∀ c ∈ tok, c ∈ text) ∧ (∀ c ∈ (strtok text).2, c ∈ text)
        ∧ tok.length + (strtok text).2.length ≤ text.length := by
  unfold strtok
  simp only []
  by_cases hs : text.dropWhile (fun c => c == '|') = []
  · left
    rw [if_pos hs]
  · right
    rw [if_neg hs]
    have hsuf := List.dropWhile_suffix (l := text) (fun c => c == '|')
    have happ := List.takeWhile_append_dropWhile (fun c => c != '|')
      (text.dropWhile (fun c => c == '|'))
    refine ⟨(text.dropWhile (fun c => c == '|')).takeWhile (fun c => c != '|'), ?_, rfl,
      ?_, ?_, ?_⟩
    · obtain ⟨x, r, hx⟩ := List.exists_cons_of_ne_nil hs
      have hx1 : (x == '|') = false := by
        have := List.head_dropWhile_not (fun c => c == '|') text hs
        simp only [hx, List.head_cons] at this
        simpa using this
      have hx2 : (x != '|') = true := by simpa using hx1
      rw [hx]
      simp [List.takeWhile, hx2]
    · intro c hc
      exact hsuf.subset (takeWhile_subset _ _ c hc)
    · intro c hc
      exact hsuf.subset ((List.dropWhile_suffix _).subset (List.mem_of_mem_drop hc))
    · have h1 := congrArg List.length happ
      have h2 := hsuf.length_le
      simp only [List.length_append] at h1
      simp only [List.length_drop]
      omega

theorem strtok_nil : strtok [] = (none, []) := rfl

theorem splitCombined_terminated (m : List Char) (hN : NUL ∉ m) :
    splitCombined (m ++ [NUL]) = .ok ((strtok m).1, (strtok (strtok m).2).1) := by
  simp only [splitCombined, cstr_store m hN, Except.map]

/-- On a terminated message of at most 299 bytes `P1` either hands a null
pointer to `strcpy` or `strcat`, or builds a final output that fits its array. -/
theorem controllerFinish_cases (m : List Char) (hN : NUL ∉ m) (hlen : m.length ≤ 299) :
    controllerFinish (m ++ [NUL]) = .error .nullPointer ∨
      ∃ c, controllerFinish (m ++ [NUL]) = .ok c ∧ c.combinedString = m ++ [NUL]
        ∧ c.finalOutput.length ≤ 400 := by
  have hlenB : "gobison.org".toList.length = 11 := rfl
  have hread : read (m ++ [NUL]) 300 = m ++ [NUL] :=
    read_whole _ 300 (by simp only [List.length_append, List.length_cons, List.length_nil]; omega)
  unfold controllerFinish
  simp only []
  rw [hread, splitCombined_terminated m hN]
  simp only [Except.bind]
  rcases strtok_cases m with h0 | ⟨tok0, -, h0, hsub0, hrest0, hlen0⟩
  · left
    rw [h0]
    rfl
  · have hN0 : NUL ∉ tok0 := fun h => hN (hsub0 _ h)
    rw [h0]
    simp only []
    rw [strcpy_terminated 400 tok0 [] hN0 (by omega)]
    simp only []
    rcases strtok_cases (strtok m).2 with h1 | ⟨tok1, -, h1, hsub1, -, hlen1⟩
    · left
      rw [h1]
      simp only [strcat, cstr_store tok0 hN0, Except.bind]
    · have hN1 : NUL ∉ tok1 := fun h => hN (hrest0 _ (hsub1 _ h))
      have hN01 : NUL ∉ tok0 ++ tok1 := by
        simp only [List.mem_append, not_or]; exact ⟨hN0, hN1⟩
      have hNf : NUL ∉ tok0 ++ tok1 ++ "gobison.org".toList := by
        simp only [List.mem_append, not_or]; exact ⟨⟨hN0, hN1⟩, bison_not_mem⟩
      right
      rw [h1]
      simp only []
      rw [strcat_terminated 400 tok0 tok1 [] hN0 hN1 (by omega)]
      simp only []
      have e1 : strcat 400 (tok0 ++ tok1 ++ [NUL]) (some bisonDomain)
          = .ok (tok0 ++ tok1 ++ "gobison.org".toList ++ [NUL]) := by
        unfold bisonDomain
        exact strcat_terminated 400 (tok0 ++ tok1) _ [] hN01 bison_not_mem
          (by simp only [List.length_append, hlenB]; omega)
      rw [e1]
      simp only [cstr_store _ hNf]
      refine ⟨_, rfl, rfl, ?_⟩
      simp only [List.length_append, List.length_cons, List.length_nil, hlenB]
      omega

/-- On a message without delimiter `P1` never prints: it reads past the bytes
it received, or hands a null pointer to `strcpy` or `strcat`. -/
theorem controllerFinish_no_delimiter (pipe : List Char) (h : '|' ∉ pipe) :
    (NUL ∉ read pipe 300 → controllerFinish pipe = .error .unterminated)
      ∧ (NUL ∈ read pipe 300 →
          (∃ p0, splitCombined (read pipe 300) = .ok (p0, none))
            ∧ controllerFinish pipe = .error .nullPointer) := by
  constructor
  · intro hN
    unfold controllerFinish splitCombined cstr
    simp only []
    rw [if_neg hN]
    rfl
  · intro hN
    have hc : cstr (read pipe 300) = .ok ((read pipe 300).takeWhile (fun c => c != NUL)) := by
      unfold cstr
      rw [if_pos hN]
    have hD : '|' ∉ (read pipe 300).takeWhile (fun c => c != NUL) := fun hm =>
      h (List.mem_of_mem_take (takeWhile_subset _ _ _ hm))
    have hlen : ((read pipe 300).takeWhile (fun c => c != NUL)).length ≤ 300 :=
      le_trans (takeWhile_length_le _ _) (by simp [read])
    have hNt : NUL ∉ (read pipe 300).takeWhile (fun c => c != NUL) := not_mem_takeWhile NUL _
    generalize (read pipe 300).takeWhile (fun c => c != NUL) = text at hc hD hlen hNt
    by_cases ht : text = []
    · subst ht
      have hs : splitCombined (read pipe 300) = .ok (none, none) := by
        simp only [splitCombined, hc, Except.map, strtok_nil]
      refine ⟨⟨none, hs⟩, ?_⟩
      unfold controllerFinish
      simp only []
      rw [hs]
      rfl
    · have hs : splitCombined (read pipe 300) = .ok (some (text ++ [NUL]), none) := by
        simp only [splitCombined, hc, Except.map, strtok_last text hD ht, strtok_nil]
      refine ⟨⟨_, hs⟩, ?_⟩
      unfold controllerFinish
      simp only []
      rw [hs]
      simp only [Except.bind]
      rw [strcpy_terminated 400 text [] hNt (by omega)]
      simp only [strcat, cstr_store text hNt, Except.bind]

end PipesProcesses1

/-! ## The calls of the two programs -/

namespace Sys

theorem closedEnds_append (a b : List Call) :
    closedEnds (a ++ b) = closedEnds a ++ closedEnds b := by
  induction a with
  | nil => rfl
  | cons c t ih => cases c <;> simp [closedEnds, ih]

theorem closedEnds_nodup_of_initial {t calls : List Call} (h : t <+: calls)
    (hn : (closedEnds calls).Nodup) : (closedEnds t).Nodup := by
  obtain ⟨u, rfl⟩ := h
  rw [closedEnds_append] at hn
  exact (List.nodup_append.mp hn).1

theorem closedEnds_of_initial {t calls : List Call} (h : t <+: calls) :
    ∀ d ∈ closedEnds t, d ∈ closedEnds calls := by
  obtain ⟨u, rfl⟩ := h
  intro d hd
  rw [closedEnds_append]
  exact List.mem_append_left _ hd

end Sys

namespace PipesProcesses1

open Sys

theorem closedEnds_mainCalls_nodup (k : Kernel1) : (closedEnds (mainCalls k)).Nodup := by
  obtain ⟨p1, p2, f⟩ := k
  cases p1 <;> cases p2 <;> cases f <;> decide

theorem closedEnds_mainCalls_array (k : Kernel1) :
    ∀ d ∈ closedEnds (mainCalls k), d.isArrayElement = true := by
  obtain ⟨p1, p2, f⟩ := k
  cases p1 <;> cases p2 <;> cases f <;> decide

theorem closedFiles_mainCalls_standard (k : Kernel1) :
    none ∉ closedFiles (Fds.start [0, 1, 2]) (mainCalls k)
      ∧ (closedFiles (Fds.start [0, 1, 2]) (mainCalls k)).Nodup := by
  obtain ⟨p1, p2, f⟩ := k
  cases p1 <;> cases p2 <;> cases f <;> decide

end PipesProcesses1

namespace PipesProcesses3

open Sys

theorem closedEnds_main_nodup (argv : List String) (k : Kernel) :
    (closedEnds (main argv k)).Nodup := by
  obtain ⟨p1, f1, p2, f2, e⟩ := k
  unfold main
  split
  · simp [closedEnds]
  · cases p1 <;> cases f1 <;> cases p2 <;> cases f2 <;> cases e <;>
      simp [closedEnds, sortBranch, grepBranch, catBranch, afterExec]

theorem closedEnds_main_array (argv : List String) (k : Kernel) :
    ∀ d ∈ closedEnds (main argv k), d.isArrayElement = true := by
  obtain ⟨p1, f1, p2, f2, e⟩ := k
  unfold main
  split
  · simp [closedEnds]
  · cases p1 <;> cases f1 <;> cases p2 <;> cases f2 <;> cases e <;>
      simp [closedEnds, sortBranch, grepBranch, catBranch, afterExec, Desc.isArrayElement]

end PipesProcesses3

/-! ## Descriptor tables -/

namespace Sys

theorem lowestFree_not_mem (used : List Nat) : lowestFree used ∉ used := by
  unfold lowestFree
  cases hf : (List.range (used.length + 1)).find? (fun n => n ∉ used) with
  | some n =>
    have := List.find?_some hf
    simpa using this
  | none =>
    exfalso
    rw [List.find?_eq_none] at hf
    have hsub : List.range (used.length + 1) ⊆ used := by
      intro n hn
      have := hf n hn
      simpa using this
    have hle := ((List.nodup_range _).subperm hsub).length_le
    simp at hle

end Sys

namespace Sys

theorem run_cons (s : Fds) (c : Call) (cs : List Call) :
    s.run (c :: cs) = (s.step c).run cs := rfl

theorem run_nil (s : Fds) : s.run [] = s := rfl

theorem run_append (s : Fds) (a b : List Call) : s.run (a ++ b) = (s.run a).run b := by
  unfold Fds.run
  exact List.foldl_append _ _ _ _

theorem without_cons_ne (x : Nat) (f : File) (t : Table) (fd : Nat) (h : x ≠ fd) :
    Table.without ((x, f) :: t) fd = (x, f) :: Table.without t fd := by
  simp [Table.without, List.filter_cons, h]

theorem without_cons_eq (f : File) (t : Table) (fd : Nat) :
    Table.without ((fd, f) :: t) fd = Table.without t fd := by
  simp [Table.without, List.filter_cons]

theorem without_of_not_mem (t : Table) (fd : Nat) (h : fd ∉ t.map Prod.fst) :
    Table.without t fd = t := by
  unfold Table.without
  rw [List.filter_eq_self]
  intro e he
  simp only [ne_eq, decide_not, Bool.not_eq_eq_eq_not, Bool.not_true, decide_eq_false_iff_not]
  rintro rfl
  exact h (List.mem_map_of_mem Prod.fst he)

theorem not_mem_without (t : Table) (fd x : Nat) (h : x ∉ t.map Prod.fst) :
    x ∉ (Table.without t fd).map Prod.fst := by
  intro hx
  apply h
  simp only [Table.without, List.mem_map, List.mem_filter] at hx ⊢
  obtain ⟨e, ⟨he, _⟩, rfl⟩ := hx
  exact ⟨e, he, rfl⟩

theorem file_cons_eq (f : File) (t : Table) (fd : Nat) :
    Table.file ((fd, f) :: t) fd = some f := by
  simp [Table.file]

theorem file_cons_ne (x : Nat) (f : File) (t : Table) (fd : Nat) (h : x ≠ fd) :
    Table.file ((x, f) :: t) fd = Table.file t fd := by
  simp [Table.file, h]

/-- What a successful `pipe` does: two fresh, distinct descriptors. -/
theorem step_pipe (s : Fds) (v : PipeVar) :
    ∃ r w, r ∉ s.table.map Prod.fst ∧ w ∉ s.table.map Prod.fst ∧ w ≠ r
      ∧ s.step (.pipe v true) =
        { table := (r, File.pipeRead v) :: (w, File.pipeWrite v) :: s.table
          vars := fun u => if u = v then some (r, w) else s.vars u } := by
  refine ⟨lowestFree (s.table.map Prod.fst),
    lowestFree (lowestFree (s.table.map Prod.fst) :: s.table.map Prod.fst),
    lowestFree_not_mem _, ?_, ?_, rfl⟩
  · exact fun h => lowestFree_not_mem _ (List.mem_cons_of_mem _ h)
  · intro h
    have hn := lowestFree_not_mem (lowestFree (s.table.map Prod.fst) :: s.table.map Prod.fst)
    rw [h] at hn
    exact hn (List.mem_cons_self _ _)

theorem step_fork (s : Fds) (r : ForkResult) : s.step (.fork r) = s := rfl

theorem step_execlp (s : Fds) (file : String) (argv : List String) (ok : Bool) :
    s.step (.execlp file argv ok) = s := rfl

theorem step_close (s : Fds) (d : Desc) (fd : Nat) (h : s.resolve d = some fd) :
    s.step (.close d) = { s with table := s.table.without fd } := by
  simp [Fds.step, h]

theorem step_dup2 (s : Fds) (oldfd newfd : Desc) (o n : Nat) (f : File)
    (ho : s.resolve oldfd = some o) (hn : s.resolve newfd = some n)
    (hf : s.table.file o = some f) (hne : o ≠ n) :
    s.step (.dup2 oldfd newfd) = { s with table := (n, f) :: s.table.without n } := by
  simp [Fds.step, ho, hn, hf, hne]

theorem step_vars (s : Fds) (c : Call) (h : c.isPipe = false) : (s.step c).vars = s.vars := by
  cases c with
  | pipe v ok => simp [Call.isPipe] at h
  | close d =>
    simp only [Fds.step]
    split <;> rfl
  | dup2 o n =>
    simp only [Fds.step]
    split
    · split
      · split <;> rfl
      · rfl
    · rfl
  | _ => rfl

theorem run_vars (s : Fds) (calls : List Call) (h : ∀ c ∈ calls, c.isPipe = false) :
    (s.run calls).vars = s.vars := by
  induction calls generalizing s with
  | nil => rfl
  | cons c t ih =>
    rw [run_cons, ih _ (fun x hx => h x (List.mem_cons_of_mem _ hx)),
      step_vars _ _ (h c (List.mem_cons_self _ _))]

end Sys

namespace PipesProcesses3

open Sys

/-- The state of the first child after its `pipe` call, in terms of the
descriptors the two `pipe` calls returned. -/
theorem after_pipes (inherited : List Nat) :
    ∃ r1 w1 r2 w2,
      (r1 ∉ inherited ∧ w1 ∉ inherited ∧ r2 ∉ inherited ∧ w2 ∉ inherited)
      ∧ (w1 ≠ r1 ∧ r2 ≠ r1 ∧ r2 ≠ w1 ∧ w2 ≠ r1 ∧ w2 ≠ w1 ∧ w2 ≠ r2)
      ∧ (Fds.start inherited).run [.pipe .pipefd1 true, .fork .parent] =
          { table := (r1, File.pipeRead .pipefd1) :: (w1, File.pipeWrite .pipefd1)
                      :: (Fds.start inherited).table
            vars := firstVar r1 w1 }
      ∧ ∀ f, (Fds.start inherited).run [.pipe .pipefd1 true, .fork .child,
                .pipe .pipefd2 true, .fork f] =
          { table := (r2, File.pipeRead .pipefd2) :: (w2, File.pipeWrite .pipefd2)
                      :: (r1, File.pipeRead .pipefd1) :: (w1, File.pipeWrite .pipefd1)
                      :: (Fds.start inherited).table
            vars := bothVars r1 w1 r2 w2 } := by
  have hfst : (Fds.start inherited).table.map Prod.fst = inherited := by
    simp [Fds.start, Function.comp_def]
  obtain ⟨r1, w1, hr1, hw1, h11, e1⟩ := step_pipe (Fds.start inherited) .pipefd1
  obtain ⟨r2, w2, hr2, hw2, h22, e2⟩ := step_pipe
    { table := (r1, File.pipeRead .pipefd1) :: (w1, File.pipeWrite .pipefd1)
                      :: (Fds.start inherited).table
      vars := fun u => if u = .pipefd1 then some (r1, w1) else (Fds.start inherited).vars u }
    .pipefd2
  simp only [List.map_cons, List.mem_cons, not_or, hfst] at hr1 hw1 hr2 hw2
  refine ⟨r1, w1, r2, w2, ⟨hr1, hw1, hr2.2.2, hw2.2.2⟩,
    ⟨h11, hr2.1, hr2.2.1, hw2.1, hw2.2.1, h22⟩, ?_, ?_⟩
  · simp only [run_cons, run_nil, e1, step_fork]
    rfl
  · intro f
    simp only [run_cons, run_nil, e1, step_fork, e2]
    rfl

end PipesProcesses3

namespace PipesProcesses3
open Sys

theorem main_stage3 (argv : List String) (hargv : argv.length = 2) (e : Bool) :
    main argv (Stage.kernel e .stage3) =
      [.pipe .pipefd1 true, .fork .child, .pipe .pipefd2 true, .fork .child]
        ++ sortBranch (Stage.kernel e .stage3) := by
  simp [main, hargv, Stage.kernel]

theorem main_stage2 (argv : List String) (hargv : argv.length = 2) (e : Bool) :
    main argv (Stage.kernel e .stage2) =
      [.pipe .pipefd1 true, .fork .child, .pipe .pipefd2 true, .fork .parent]
        ++ grepBranch argv (Stage.kernel e .stage2) := by
  simp [main, hargv, Stage.kernel]

theorem main_stage1 (argv : List String) (hargv : argv.length = 2) (e : Bool) :
    main argv (Stage.kernel e .stage1) =
      [.pipe .pipefd1 true, .fork .parent] ++ catBranch (Stage.kernel e .stage1) := by
  simp [main, hargv, Stage.kernel]

theorem run_afterExec (s : Fds) (ok : Bool) (text : String) :
    s.run (afterExec ok text) = s := by
  cases ok <;> rfl

theorem sortBranch_fds (t0 : Table) (r1 w1 r2 w2 : Nat) (k : Kernel)
    (h0 : r1 ∉ t0.map Prod.fst ∧ w1 ∉ t0.map Prod.fst ∧ r2 ∉ t0.map Prod.fst
      ∧ w2 ∉ t0.map Prod.fst)
    (hd : w1 ≠ r1 ∧ r2 ≠ r1 ∧ r2 ≠ w1 ∧ w2 ≠ r1 ∧ w2 ≠ w1 ∧ w2 ≠ r2)
    (hstd : r2 ≠ 0) :
    Fds.run
        { table := (r2, File.pipeRead .pipefd2) :: (w2, File.pipeWrite .pipefd2)
                      :: (r1, File.pipeRead .pipefd1) :: (w1, File.pipeWrite .pipefd1) :: t0
          vars := bothVars r1 w1 r2 w2 }
        (sortBranch k) =
      { table := (0, File.pipeRead .pipefd2) :: t0.without 0
        vars := bothVars r1 w1 r2 w2 } := by
  obtain ⟨h1, h2, h3, h4⟩ := h0
  obtain ⟨d1, d2, d3, d4, d5, d6⟩ := hd
  unfold sortBranch
  rw [run_append, run_afterExec]
  simp only [run_cons, run_nil, step_execlp]
  have e1 : Fds.step
      { table := (r2, File.pipeRead .pipefd2) :: (w2, File.pipeWrite .pipefd2)
                      :: (r1, File.pipeRead .pipefd1) :: (w1, File.pipeWrite .pipefd1) :: t0
        vars := bothVars r1 w1 r2 w2 } (.close (.readEnd .pipefd1)) =
      { table := (r2, File.pipeRead .pipefd2) :: (w2, File.pipeWrite .pipefd2)
                      :: (w1, File.pipeWrite .pipefd1) :: t0
        vars := bothVars r1 w1 r2 w2 } := by
    rw [step_close _ _ r1 (by simp [Fds.resolve, bothVars])]
    simp only [without_cons_ne _ _ _ _ d2, without_cons_ne _ _ _ _ d4, without_cons_eq,
      without_cons_ne _ _ _ _ d1, without_of_not_mem _ _ h1]
  have e2 : Fds.step
      { table := (r2, File.pipeRead .pipefd2) :: (w2, File.pipeWrite .pipefd2)
                      :: (w1, File.pipeWrite .pipefd1) :: t0
        vars := bothVars r1 w1 r2 w2 } (.close (.writeEnd .pipefd1)) =
      { table := (r2, File.pipeRead .pipefd2) :: (w2, File.pipeWrite .pipefd2) :: t0
        vars := bothVars r1 w1 r2 w2 } := by
    rw [step_close _ _ w1 (by simp [Fds.resolve, bothVars])]
    simp only [without_cons_ne _ _ _ _ d3, without_cons_ne _ _ _ _ d5, without_cons_eq,
      without_of_not_mem _ _ h2]
  have e3 : Fds.step
      { table := (r2, File.pipeRead .pipefd2) :: (w2, File.pipeWrite .pipefd2) :: t0
        vars := bothVars r1 w1 r2 w2 } (.close (.writeEnd .pipefd2)) =
      { table := (r2, File.pipeRead .pipefd2) :: t0
        vars := bothVars r1 w1 r2 w2 } := by
    rw [step_close _ _ w2 (by simp [Fds.resolve, bothVars])]
    simp only [without_cons_ne _ _ _ _ d6.symm, without_cons_eq, without_of_not_mem _ _ h4]
  have e4 : Fds.step
      { table := (r2, File.pipeRead .pipefd2) :: t0
        vars := bothVars r1 w1 r2 w2 } (.dup2 (.readEnd .pipefd2) .STDIN_FILENO) =
      { table := (0, File.pipeRead .pipefd2) :: (r2, File.pipeRead .pipefd2) :: t0.without 0
        vars := bothVars r1 w1 r2 w2 } := by
    rw [step_dup2 _ _ _ r2 0 (File.pipeRead .pipefd2) (by simp [Fds.resolve, bothVars])
      (by simp [Fds.resolve]) (file_cons_eq _ _ _) hstd]
    simp only [without_cons_ne _ _ _ _ hstd]
  have e5 : Fds.step
      { table := (0, File.pipeRead .pipefd2) :: (r2, File.pipeRead .pipefd2) :: t0.without 0
        vars := bothVars r1 w1 r2 w2 } (.close (.readEnd .pipefd2)) =
      { table := (0, File.pipeRead .pipefd2) :: t0.without 0
        vars := bothVars r1 w1 r2 w2 } := by
    rw [step_close _ _ r2 (by simp [Fds.resolve, bothVars])]
    simp only [without_cons_ne _ _ _ _ (Ne.symm hstd), without_cons_eq,
      without_of_not_mem _ _ (not_mem_without _ _ _ h3)]
  rw [e1, e2, e3, e4, e5]

theorem grepBranch_fds (t0 : Table) (r1 w1 r2 w2 : Nat) (argv : List String) (k : Kernel)
    (h0 : r1 ∉ t0.map Prod.fst ∧ w1 ∉ t0.map Prod.fst ∧ r2 ∉ t0.map Prod.fst
      ∧ w2 ∉ t0.map Prod.fst)
    (hd : w1 ≠ r1 ∧ r2 ≠ r1 ∧ r2 ≠ w1 ∧ w2 ≠ r1 ∧ w2 ≠ w1 ∧ w2 ≠ r2)
    (hstd : r1 ≠ 0 ∧ r1 ≠ 1 ∧ w2 ≠ 0 ∧ w2 ≠ 1) :
    Fds.run
        { table := (r2, File.pipeRead .pipefd2) :: (w2, File.pipeWrite .pipefd2)
                      :: (r1, File.pipeRead .pipefd1) :: (w1, File.pipeWrite .pipefd1) :: t0
          vars := bothVars r1 w1 r2 w2 }
        (grepBranch argv k) =
      { table := (1, File.pipeWrite .pipefd2) :: (0, File.pipeRead .pipefd1)
                    :: (t0.without 0).without 1
        vars := bothVars r1 w1 r2 w2 } := by
  obtain ⟨h1, h2, h3, h4⟩ := h0
  obtain ⟨d1, d2, d3, d4, d5, d6⟩ := hd
  obtain ⟨s1, s2, s3, s4⟩ := hstd
  unfold grepBranch
  rw [run_append, run_afterExec]
  simp only [run_cons, run_nil, step_execlp]
  have e1 : Fds.step
      { table := (r2, File.pipeRead .pipefd2) :: (w2, File.pipeWrite .pipefd2)
                      :: (r1, File.pipeRead .pipefd1) :: (w1, File.pipeWrite .pipefd1) :: t0
        vars := bothVars r1 w1 r2 w2 } (.close (.writeEnd .pipefd1)) =
      { table := (r2, File.pipeRead .pipefd2) :: (w2, File.pipeWrite .pipefd2)
                      :: (r1, File.pipeRead .pipefd1) :: t0
        vars := bothVars r1 w1 r2 w2 } := by
    rw [step_close _ _ w1 (by simp [Fds.resolve, bothVars])]
    simp only [without_cons_ne _ _ _ _ d3, without_cons_ne _ _ _ _ d5, without_cons_eq,
      without_cons_ne _ _ _ _ d1.symm, without_of_not_mem _ _ h2]
  have e2 : Fds.step
      { table := (r2, File.pipeRead .pipefd2) :: (w2, File.pipeWrite .pipefd2)
                      :: (r1, File.pipeRead .pipefd1) :: t0
        vars := bothVars r1 w1 r2 w2 } (.close (.readEnd .pipefd2)) =
      { table := (w2, File.pipeWrite .pipefd2) :: (r1, File.pipeRead .pipefd1) :: t0
        vars := bothVars r1 w1 r2 w2 } := by
    rw [step_close _ _ r2 (by simp [Fds.resolve, bothVars])]
    simp only [without_cons_ne _ _ _ _ d6, without_cons_ne _ _ _ _ d2.symm, without_cons_eq,
      without_of_not_mem _ _ h3]
  have e3 : Fds.step
      { table := (w2, File.pipeWrite .pipefd2) :: (r1, File.pipeRead .pipefd1) :: t0
        vars := bothVars r1 w1 r2 w2 } (.dup2 (.readEnd .pipefd1) .STDIN_FILENO) =
      { table := (0, File.pipeRead .pipefd1) :: (w2, File.pipeWrite .pipefd2)
                    :: (r1, File.pipeRead .pipefd1) :: t0.without 0
        vars := bothVars r1 w1 r2 w2 } := by
    rw [step_dup2 _ _ _ r1 0 (File.pipeRead .pipefd1) (by simp [Fds.resolve, bothVars])
      (by simp [Fds.resolve]) (by rw [file_cons_ne _ _ _ _ d4, file_cons_eq]) s1]
    simp only [without_cons_ne _ _ _ _ s1, without_cons_ne _ _ _ _ s3]
  have e4 : Fds.step
      { table := (0, File.pipeRead .pipefd1) :: (w2, File.pipeWrite .pipefd2)
                    :: (r1, File.pipeRead .pipefd1) :: t0.without 0
        vars := bothVars r1 w1 r2 w2 } (.dup2 (.writeEnd .pipefd2) .STDOUT_FILENO) =
      { table := (1, File.pipeWrite .pipefd2) :: (0, File.pipeRead .pipefd1)
                    :: (w2, File.pipeWrite .pipefd2) :: (r1, File.pipeRead .pipefd1)
                    :: (t0.without 0).without 1
        vars := bothVars r1 w1 r2 w2 } := by
    rw [step_dup2 _ _ _ w2 1 (File.pipeWrite .pipefd2) (by simp [Fds.resolve, bothVars])
      (by simp [Fds.resolve]) (by rw [file_cons_ne _ _ _ _ s3.symm, file_cons_eq]) s4]
    simp only [without_cons_ne _ _ _ _ s2, without_cons_ne _ _ _ _ s4,
      without_cons_ne 0 _ _ 1 (by decide)]
  have e5 : Fds.step
      { table := (1, File.pipeWrite .pipefd2) :: (0, File.pipeRead .pipefd1)
                    :: (w2, File.pipeWrite .pipefd2) :: (r1, File.pipeRead .pipefd1)
                    :: (t0.without 0).without 1
        vars := bothVars r1 w1 r2 w2 } (.close (.readEnd .pipefd1)) =
      { table := (1, File.pipeWrite .pipefd2) :: (0, File.pipeRead .pipefd1)
                    :: (w2, File.pipeWrite .pipefd2) :: (t0.without 0).without 1
        vars := bothVars r1 w1 r2 w2 } := by
    rw [step_close _ _ r1 (by simp [Fds.resolve, bothVars])]
    simp only [without_cons_ne _ _ _ _ s1.symm, without_cons_ne _ _ _ _ s2.symm,
      without_cons_ne _ _ _ _ d4, without_cons_eq,
      without_of_not_mem _ _ (not_mem_without _ _ _ (not_mem_without _ _ _ h1))]
  have e6 : Fds.step
      { table := (1, File.pipeWrite .pipefd2) :: (0, File.pipeRead .pipefd1)
                    :: (w2, File.pipeWrite .pipefd2) :: (t0.without 0).without 1
        vars := bothVars r1 w1 r2 w2 } (.close (.writeEnd .pipefd2)) =
      { table := (1, File.pipeWrite .pipefd2) :: (0, File.pipeRead .pipefd1)
                    :: (t0.without 0).without 1
        vars := bothVars r1 w1 r2 w2 } := by
    rw [step_close _ _ w2 (by simp [Fds.resolve, bothVars])]
    simp only [without_cons_ne _ _ _ _ s3.symm, without_cons_ne _ _ _ _ s4.symm,
      without_cons_eq,
      without_of_not_mem _ _ (not_mem_without _ _ _ (not_mem_without _ _ _ h4))]
  rw [e1, e2, e3, e4, e5, e6]

theorem catBranch_fds (t0 : Table) (r1 w1 : Nat) (k : Kernel)
    (h0 : r1 ∉ t0.map Prod.fst ∧ w1 ∉ t0.map Prod.fst) (hd : w1 ≠ r1) (hstd : w1 ≠ 1) :
    Fds.run
        { table := (r1, File.pipeRead .pipefd1) :: (w1, File.pipeWrite .pipefd1) :: t0
          vars := firstVar r1 w1 }
        (catBranch k) =
      { table := (1, File.pipeWrite .pipefd1) :: t0.without 1
        vars := firstVar r1 w1 } := by
  obtain ⟨h1, h2⟩ := h0
  unfold catBranch
  rw [run_append, run_afterExec]
  simp only [run_cons, run_nil, step_execlp]
  have e1 : Fds.step
      { table := (r1, File.pipeRead .pipefd1) :: (w1, File.pipeWrite .pipefd1) :: t0
        vars := firstVar r1 w1 } (.close (.readEnd .pipefd1)) =
      { table := (w1, File.pipeWrite .pipefd1) :: t0
        vars := firstVar r1 w1 } := by
    rw [step_close _ _ r1 (by simp [Fds.resolve, firstVar])]
    simp only [without_cons_ne _ _ _ _ hd, without_cons_eq, without_of_not_mem _ _ h1]
  have e2 : Fds.step
      { table := (w1, File.pipeWrite .pipefd1) :: t0
        vars := firstVar r1 w1 } (.dup2 (.writeEnd .pipefd1) .STDOUT_FILENO) =
      { table := (1, File.pipeWrite .pipefd1) :: (w1, File.pipeWrite .pipefd1)
                    :: t0.without 1
        vars := firstVar r1 w1 } := by
    rw [step_dup2 _ _ _ w1 1 (File.pipeWrite .pipefd1) (by simp [Fds.resolve, firstVar])
      (by simp [Fds.resolve]) (file_cons_eq _ _ _) hstd]
    simp only [without_cons_ne _ _ _ _ hstd]
  have e3 : Fds.step
      { table := (1, File.pipeWrite .pipefd1) :: (w1, File.pipeWrite .pipefd1)
                    :: t0.without 1
        vars := firstVar r1 w1 } (.close (.writeEnd .pipefd1)) =
      { table := (1, File.pipeWrite .pipefd1) :: t0.without 1
        vars := firstVar r1 w1 } := by
    rw [step_close _ _ w1 (by simp [Fds.resolve, firstVar])]
    simp only [without_cons_ne _ _ _ _ hstd.symm, without_cons_eq,
      without_of_not_mem _ _ (not_mem_without _ _ _ h2)]
  rw [e1, e2, e3]

theorem branches_no_pipe (argv : List String) (k : Kernel) :
    (∀ c ∈ catBranch k, c.isPipe = false) ∧ (∀ c ∈ grepBranch argv k, c.isPipe = false)
      ∧ (∀ c ∈ sortBranch k, c.isPipe = false) := by
  obtain ⟨p1, f1, p2, f2, e⟩ := k
  cases e <;> simp [catBranch, grepBranch, sortBranch, afterExec, Call.isPipe]

/-- The descriptors of the three stages in terms of the four descriptors the
two `pipe` calls return. -/
theorem stage_fds (inherited : List Nat) (argv : List String) (hargv : argv.length = 2)
    (e : Bool) :
    ∃ r1 w1 r2 w2,
      (r1 ∉ inherited ∧ w1 ∉ inherited ∧ r2 ∉ inherited ∧ w2 ∉ inherited)
      ∧ (stageFds inherited argv e .stage1).vars = firstVar r1 w1
      ∧ (stageFds inherited argv e .stage2).vars = bothVars r1 w1 r2 w2
      ∧ (stageFds inherited argv e .stage3).vars = bothVars r1 w1 r2 w2
      ∧ (w1 ≠ 1 → (stageFds inherited argv e .stage1).table =
          (1, File.pipeWrite .pipefd1) :: (Fds.start inherited).table.without 1)
      ∧ (r1 ≠ 0 ∧ r1 ≠ 1 ∧ w2 ≠ 0 ∧ w2 ≠ 1 → (stageFds inherited argv e .stage2).table =
          (1, File.pipeWrite .pipefd2) :: (0, File.pipeRead .pipefd1)
            :: ((Fds.start inherited).table.without 0).without 1)
      ∧ (r2 ≠ 0 → (stageFds inherited argv e .stage3).table =
          (0, File.pipeRead .pipefd2) :: (Fds.start inherited).table.without 0) := by
  have hfst : (Fds.start inherited).table.map Prod.fst = inherited := by
    simp [Fds.start, Function.comp_def]
  obtain ⟨r1, w1, r2, w2, h0, hd, e1, e2⟩ := after_pipes inherited
  have h0t : r1 ∉ (Fds.start inherited).table.map Prod.fst
      ∧ w1 ∉ (Fds.start inherited).table.map Prod.fst
      ∧ r2 ∉ (Fds.start inherited).table.map Prod.fst
      ∧ w2 ∉ (Fds.start inherited).table.map Prod.fst := by
    rw [hfst]; exact h0
  have nb := branches_no_pipe argv
  refine ⟨r1, w1, r2, w2, h0, ?_, ?_, ?_, ?_, ?_, ?_⟩
  · unfold stageFds
    rw [main_stage1 argv hargv, run_append, e1, run_vars _ _ (nb _).1]
  · unfold stageFds
    rw [main_stage2 argv hargv, run_append, e2, run_vars _ _ (nb _).2.1]
  · unfold stageFds
    rw [main_stage3 argv hargv, run_append, e2, run_vars _ _ (nb _).2.2]
  · intro hs
    unfold stageFds
    rw [main_stage1 argv hargv, run_append, e1,
      catBranch_fds _ r1 w1 _ ⟨h0t.1, h0t.2.1⟩ hd.1 hs]
  · intro hs
    unfold stageFds
    rw [main_stage2 argv hargv, run_append, e2, grepBranch_fds _ r1 w1 r2 w2 _ _ h0t hd hs]
  · intro hs
    unfold stageFds
    rw [main_stage3 argv hargv, run_append, e2, sortBranch_fds _ r1 w1 r2 w2 _ h0t hd hs]

theorem mem_without {t : Table} {fd : Nat} {e : Nat × File} (h : e ∈ t.without fd) : e ∈ t :=
  (List.mem_filter.mp h).1

theorem start_not_pipeEnd (inherited : List Nat) (e : Nat × File)
    (h : e ∈ (Fds.start inherited).table) : e.2.isPipeEnd = false := by
  simp only [Fds.start, List.mem_map] at h
  obtain ⟨fd, _, rfl⟩ := h
  rfl

/-- C6. Take a program started with any set of open descriptors and an
argument vector of two strings, and assume that every descriptor the `pipe`
calls returned is at least 3.  When the stages have made all their calls up to
a successful `execlp`: in Stage3 descriptor 0 is the read end of `pipefd2` and
no other descriptor is a pipe end; in Stage2 descriptor 0 is the read end of
`pipefd1`, descriptor 1 the write end of `pipefd2`, and no other descriptor is a
pipe end; in Stage1 descriptor 1 is the write end of `pipefd1` and no other
descriptor is a pipe end. -/
theorem stage_descriptors (inherited : List Nat) (argv : List String)
    (hargv : argv.length = 2)
    (hstd : ∀ s, ∀ fd ∈ (stageFds inherited argv true s).pipeDescriptors, 3 ≤ fd) :
    ((stageFds inherited argv true .stage3).table.file 0 = some (.pipeRead .pipefd2)
      ∧ ∀ fd f, (fd, f) ∈ (stageFds inherited argv true .stage3).table →
          f.isPipeEnd = true → fd = 0 ∧ f = .pipeRead .pipefd2)
    ∧ ((stageFds inherited argv true .stage2).table.file 0 = some (.pipeRead .pipefd1)
      ∧ (stageFds inherited argv true .stage2).table.file 1 = some (.pipeWrite .pipefd2)
      ∧ ∀ fd f, (fd, f) ∈ (stageFds inherited argv true .stage2).table →
          f.isPipeEnd = true →
            (fd = 0 ∧ f = .pipeRead .pipefd1) ∨ (fd = 1 ∧ f = .pipeWrite .pipefd2))
    ∧ ((stageFds inherited argv true .stage1).table.file 1 = some (.pipeWrite .pipefd1)
      ∧ ∀ fd f, (fd, f) ∈ (stageFds inherited argv true .stage1).table →
          f.isPipeEnd = true → fd = 1 ∧ f = .pipeWrite .pipefd1) := by
  obtain ⟨r1, w1, r2, w2, -, v1, v2, v3, t1, t2, t3⟩ := stage_fds inherited argv hargv true
  have hge : 3 ≤ r1 ∧ 3 ≤ w1 ∧ 3 ≤ r2 ∧ 3 ≤ w2 := by
    have h := hstd .stage3
    simp only [Fds.pipeDescriptors, Fds.stored, v3, bothVars] at h
    simp at h
    exact ⟨h.1, h.2.1, h.2.2.1, h.2.2.2⟩
  obtain ⟨g1, g2, g3, g4⟩ := hge
  rw [t1 (by omega), t2 ⟨by omega, by omega, by omega, by omega⟩, t3 (by omega)]
  refine ⟨⟨file_cons_eq _ _ _, ?_⟩, ⟨?_, file_cons_eq _ _ _, ?_⟩, ⟨file_cons_eq _ _ _, ?_⟩⟩
  · intro fd f hm hp
    rcases List.mem_cons.mp hm with h | h
    · simp only [Prod.mk.injEq] at h
      exact h
    · have := start_not_pipeEnd inherited _ (mem_without h)
      simp only [hp] at this
      exact absurd this (by decide)
  · rw [file_cons_ne 1 _ _ 0 (by decide), file_cons_eq]
  · intro fd f hm hp
    rcases List.mem_cons.mp hm with h | h
    · simp only [Prod.mk.injEq] at h
      exact Or.inr h
    · rcases List.mem_cons.mp h with h | h
      · simp only [Prod.mk.injEq] at h
        exact Or.inl h
      · have := start_not_pipeEnd inherited _ (mem_without (mem_without h))
        simp only [hp] at this
        exact absurd this (by decide)
  · intro fd f hm hp
    rcases List.mem_cons.mp hm with h | h
    · simp only [Prod.mk.injEq] at h
      exact h
    · have := start_not_pipeEnd inherited _ (mem_without h)
      simp only [hp] at this
      exact absurd this (by decide)

theorem stage_descriptors_witness :
    (stageFds [0, 1, 2] ["pipes_processes3", "alice"] true .stage2).table.file 0
        = some (.pipeRead .pipefd1)
      ∧ (stageFds [0, 1, 2] ["pipes_processes3", "alice"] true .stage2).table.file 1
        = some (.pipeWrite .pipefd2) :=
  have h := stage_descriptors [0, 1, 2] ["pipes_processes3", "alice"] rfl
    (by intro s; cases s <;> decide)
  ⟨h.2.1.1, h.2.1.2.1⟩

end PipesProcesses3

namespace Sys

theorem closedFiles_append (s : Fds) (a b : List Call) :
    closedFiles s (a ++ b) = closedFiles s a ++ closedFiles (s.run a) b := by
  induction a generalizing s with
  | nil => rfl
  | cons c t ih =>
    cases c <;> simp [closedFiles, ih, run_cons]

theorem closedEnds_cons (c : Call) (rest : List Call) :
    closedEnds (c :: rest) = closedEnds [c] ++ closedEnds rest :=
  closedEnds_append [c] rest

theorem step_resolve (s : Fds) (c : Call) (h : c.isPipe = false) (d : Desc) :
    (s.step c).resolve d = s.resolve d := by
  cases d <;> simp [Fds.resolve, step_vars s c h]

theorem file_without_ne (t : Table) (x fd : Nat) (h : fd ≠ x) :
    (t.without x).file fd = t.file fd := by
  induction t with
  | nil => rfl
  | cons e rest ih =>
    obtain ⟨y, f⟩ := e
    by_cases hy : y = x
    · subst hy
      rw [without_cons_eq, ih, file_cons_ne _ _ _ _ (Ne.symm h)]
    · rw [without_cons_ne _ _ _ _ hy]
      by_cases hf : y = fd
      · subst hf
        rw [file_cons_eq, file_cons_eq]
      · rw [file_cons_ne _ _ _ _ hf, file_cons_ne _ _ _ _ hf, ih]

/-- A call other than `pipe` and other than a `close` of `fd` leaves `fd` open. -/
theorem step_keeps_open (s : Fds) (c : Call) (fd : Nat)
    (hopen : (s.table.file fd).isSome = true) (hp : c.isPipe = false)
    (hc : ∀ d, c = .close d → s.resolve d ≠ some fd) :
    ((s.step c).table.file fd).isSome = true := by
  cases c with
  | pipe v ok => simp [Call.isPipe] at hp
  | close d =>
    simp only [Fds.step]
    cases hr : s.resolve d with
    | none => exact hopen
    | some x =>
      have hx : fd ≠ x := by
        rintro rfl
        exact hc d rfl hr
      simp only []
      rw [file_without_ne _ _ _ hx]
      exact hopen
  | dup2 o n =>
    simp only [Fds.step]
    cases ho : s.resolve o with
    | none => exact hopen
    | some a =>
      cases hn : s.resolve n with
      | none => exact hopen
      | some b =>
        simp only []
        cases hf : s.table.file a with
        | none => exact hopen
        | some f =>
          simp only []
          by_cases hab : a = b
          · rw [if_pos hab]
            exact hopen
          · rw [if_neg hab]
            simp only []
            by_cases hb : b = fd
            · subst hb
              rw [file_cons_eq]
              rfl
            · rw [file_cons_ne _ _ _ _ hb, file_without_ne _ _ _ (Ne.symm hb)]
              exact hopen
  | _ => exact hopen

/-- When the descriptors handed to `close` are open at the start, pairwise
different as expressions and as numbers, and no `pipe` call intervenes, every
`close` acts on an open descriptor. -/
theorem closedFiles_open (s : Fds) (calls : List Call)
    (hnp : ∀ c ∈ calls, c.isPipe = false)
    (hnd : (closedEnds calls).Nodup)
    (hopen : ∀ d ∈ closedEnds calls, ∃ fd, s.resolve d = some fd
      ∧ (s.table.file fd).isSome = true)
    (hinj : ∀ d ∈ closedEnds calls, ∀ e ∈ closedEnds calls,
      s.resolve d = s.resolve e → d = e) :
    none ∉ closedFiles s calls := by
  induction calls generalizing s with
  | nil => simp [closedFiles]
  | cons c rest ih =>
    have hc : c.isPipe = false := hnp c (List.mem_cons_self _ _)
    have hrest : ∀ x ∈ rest, x.isPipe = false := fun x hx => hnp x (List.mem_cons_of_mem _ hx)
    have hsub : ∀ d ∈ closedEnds rest, d ∈ closedEnds (c :: rest) := by
      intro d hd
      rw [closedEnds_cons]
      exact List.mem_append_right _ hd
    have hnd2 : (closedEnds rest).Nodup := by
      rw [closedEnds_cons] at hnd
      exact (List.nodup_append.mp hnd).2.1
    have key : none ∉ closedFiles (s.step c) rest := by
      apply ih (s.step c) hrest hnd2
      · intro d hd
        obtain ⟨fd, hfd, ho⟩ := hopen d (hsub d hd)
        refine ⟨fd, by rw [step_resolve s c hc]; exact hfd, ?_⟩
        apply step_keeps_open s c fd ho hc
        intro e he hre
        subst he
        have hmem : e ∈ closedEnds (Call.close e :: rest) := List.mem_cons_self _ _
        have := hinj e hmem d (hsub d hd) (by rw [hre, hfd])
        subst this
        exact (List.nodup_cons.mp hnd).1 hd
      · intro d hd e he hde
        rw [step_resolve s c hc, step_resolve s c hc] at hde
        exact hinj d (hsub d hd) e (hsub e he) hde
    cases c with
    | close d =>
      simp only [closedFiles, List.mem_cons, not_or]
      refine ⟨?_, key⟩
      obtain ⟨fd, hfd, ho⟩ := hopen d (List.mem_cons_self _ _)
      rw [hfd]
      simp only [Option.bind]
      intro h
      rw [← h] at ho
      simp at ho
    | pipe v ok => simp [Call.isPipe] at hc
    | _ => exact key

theorem closedFiles_nil (s : Fds) (calls : List Call) (h : closedEnds calls = []) :
    closedFiles s calls = [] := by
  induction calls generalizing s with
  | nil => rfl
  | cons c rest ih =>
    rw [closedEnds_cons] at h
    have h1 := (List.append_eq_nil.mp h).1
    have h2 := (List.append_eq_nil.mp h).2
    cases c with
    | close d => simp [closedEnds] at h1
    | _ => exact ih _ h2

/-- Two successive `pipe` calls return four fresh, pairwise different
descriptors. -/
theorem two_pipes (s : Fds) (v1 v2 : PipeVar) :
    ∃ r1 w1 r2 w2,
      (r1 ∉ s.table.map Prod.fst ∧ w1 ∉ s.table.map Prod.fst ∧ r2 ∉ s.table.map Prod.fst
        ∧ w2 ∉ s.table.map Prod.fst)
      ∧ (w1 ≠ r1 ∧ r2 ≠ r1 ∧ r2 ≠ w1 ∧ w2 ≠ r1 ∧ w2 ≠ w1 ∧ w2 ≠ r2)
      ∧ (s.step (.pipe v1 true)).step (.pipe v2 true) =
          { table := (r2, File.pipeRead v2) :: (w2, File.pipeWrite v2)
                      :: (r1, File.pipeRead v1) :: (w1, File.pipeWrite v1) :: s.table
            vars := fun u => if u = v2 then some (r2, w2)
                      else if u = v1 then some (r1, w1) else s.vars u } := by
  obtain ⟨r1, w1, hr1, hw1, h11, e1⟩ := step_pipe s v1
  obtain ⟨r2, w2, hr2, hw2, h22, e2⟩ := step_pipe
    { table := (r1, File.pipeRead v1) :: (w1, File.pipeWrite v1) :: s.table
      vars := fun u => if u = v1 then some (r1, w1) else s.vars u } v2
  simp only [List.map_cons, List.mem_cons, not_or] at hr2 hw2
  exact ⟨r1, w1, r2, w2, ⟨hr1, hw1, hr2.2.2, hw2.2.2⟩,
    ⟨h11, hr2.1, hr2.2.1, hw2.1, hw2.2.1, h22⟩, by rw [e1, e2]⟩

/-- A process that holds both ends of two pipes on four different
descriptors, and then closes ends of these pipes, each at most once, without
a further `pipe` call, closes open descriptors only. -/
theorem closes_open_of_four (t0 : Table) (vars : PipeVar → Option (Nat × Nat))
    (v1 v2 : PipeVar) (r1 w1 r2 w2 : Nat)
    (hd : w1 ≠ r1 ∧ r2 ≠ r1 ∧ r2 ≠ w1 ∧ w2 ≠ r1 ∧ w2 ≠ w1 ∧ w2 ≠ r2)
    (hv1 : vars v1 = some (r1, w1)) (hv2 : vars v2 = some (r2, w2))
    (calls : List Call) (hnp : ∀ c ∈ calls, c.isPipe = false)
    (hnd : (closedEnds calls).Nodup)
    (hsub : ∀ d ∈ closedEnds calls,
      d = .readEnd v1 ∨ d = .writeEnd v1 ∨ d = .readEnd v2 ∨ d = .writeEnd v2) :
    none ∉ closedFiles
      { table := (r2, File.pipeRead v2) :: (w2, File.pipeWrite v2)
                  :: (r1, File.pipeRead v1) :: (w1, File.pipeWrite v1) :: t0
        vars := vars } calls := by
  obtain ⟨d1, d2, d3, d4, d5, d6⟩ := hd
  have q1 : Fds.resolve ⟨(r2, File.pipeRead v2) :: (w2, File.pipeWrite v2)
      :: (r1, File.pipeRead v1) :: (w1, File.pipeWrite v1) :: t0, vars⟩ (.readEnd v1)
      = some r1 := by simp [Fds.resolve, hv1]
  have q2 : Fds.resolve ⟨(r2, File.pipeRead v2) :: (w2, File.pipeWrite v2)
      :: (r1, File.pipeRead v1) :: (w1, File.pipeWrite v1) :: t0, vars⟩ (.writeEnd v1)
      = some w1 := by simp [Fds.resolve, hv1]
  have q3 : Fds.resolve ⟨(r2, File.pipeRead v2) :: (w2, File.pipeWrite v2)
      :: (r1, File.pipeRead v1) :: (w1, File.pipeWrite v1) :: t0, vars⟩ (.readEnd v2)
      = some r2 := by simp [Fds.resolve, hv2]
  have q4 : Fds.resolve ⟨(r2, File.pipeRead v2) :: (w2, File.pipeWrite v2)
      :: (r1, File.pipeRead v1) :: (w1, File.pipeWrite v1) :: t0, vars⟩ (.writeEnd v2)
      = some w2 := by simp [Fds.resolve, hv2]
  apply closedFiles_open _ _ hnp hnd
  · intro d hd
    rcases hsub d hd with rfl | rfl | rfl | rfl
    · exact ⟨r1, q1, by
        rw [file_cons_ne _ _ _ _ d2, file_cons_ne _ _ _ _ d4, file_cons_eq]; rfl⟩
    · exact ⟨w1, q2, by
        rw [file_cons_ne _ _ _ _ d3, file_cons_ne _ _ _ _ d5, file_cons_ne _ _ _ _ d1.symm,
          file_cons_eq]; rfl⟩
    · exact ⟨r2, q3, by rw [file_cons_eq]; rfl⟩
    · exact ⟨w2, q4, by rw [file_cons_ne _ _ _ _ d6.symm, file_cons_eq]; rfl⟩
  · intro d hd e he hde
    rcases hsub d hd with rfl | rfl | rfl | rfl <;>
      rcases hsub e he with rfl | rfl | rfl | rfl <;>
      simp only [q1, q2, q3, q4, Option.some.injEq] at hde <;>
      first
        | rfl
        | exact absurd hde d1
        | exact absurd hde d2
        | exact absurd hde d3
        | exact absurd hde d4
        | exact absurd hde d5
        | exact absurd hde d6
        | exact absurd hde.symm d1
        | exact absurd hde.symm d2
        | exact absurd hde.symm d3
        | exact absurd hde.symm d4
        | exact absurd hde.symm d5
        | exact absurd hde.symm d6

/-- The same for a process that holds both ends of one pipe. -/
theorem closes_open_of_two (t0 : Table) (vars : PipeVar → Option (Nat × Nat))
    (v1 : PipeVar) (r1 w1 : Nat) (hne : w1 ≠ r1) (hv1 : vars v1 = some (r1, w1))
    (calls : List Call) (hnp : ∀ c ∈ calls, c.isPipe = false)
    (hnd : (closedEnds calls).Nodup)
    (hsub : ∀ d ∈ closedEnds calls, d = .readEnd v1 ∨ d = .writeEnd v1) :
    none ∉ closedFiles
      { table := (r1, File.pipeRead v1) :: (w1, File.pipeWrite v1) :: t0
        vars := vars } calls := by
  have q1 : Fds.resolve ⟨(r1, File.pipeRead v1) :: (w1, File.pipeWrite v1) :: t0, vars⟩
      (.readEnd v1) = some r1 := by simp [Fds.resolve, hv1]
  have q2 : Fds.resolve ⟨(r1, File.pipeRead v1) :: (w1, File.pipeWrite v1) :: t0, vars⟩
      (.writeEnd v1) = some w1 := by simp [Fds.resolve, hv1]
  apply closedFiles_open _ _ hnp hnd
  · intro d hd
    rcases hsub d hd with rfl | rfl
    · exact ⟨r1, q1, by rw [file_cons_eq]; rfl⟩
    · exact ⟨w1, q2, by rw [file_cons_ne _ _ _ _ hne.symm, file_cons_eq]; rfl⟩
  · intro d hd e he hde
    rcases hsub d hd with rfl | rfl <;>
      rcases hsub e he with rfl | rfl <;>
      simp only [q1, q2, Option.some.injEq] at hde <;>
      first
        | rfl
        | exact absurd hde hne
        | exact absurd hde.symm hne

end Sys

namespace PipesProcesses1

open Sys

/-- For any set of initially open descriptors, every `close` of the exchange
acts on an open descriptor. -/
theorem closes_open_mainCalls (inherited : List Nat) (k : Kernel1) :
    none ∉ closedFiles (Fds.start inherited) (mainCalls k) := by
  obtain ⟨p1, p2, f⟩ := k
  obtain ⟨r1, w1, r2, w2, -, hd, e⟩ := two_pipes (Fds.start inherited) .p1ToP2Pipe .p2ToP1Pipe
  have hpre : ∀ f, (Fds.start inherited).run
      [.pipe .p1ToP2Pipe true, .pipe .p2ToP1Pipe true, .printf "Enter first string: ",
        .scanf, .fork f]
      = ((Fds.start inherited).step (.pipe .p1ToP2Pipe true)).step (.pipe .p2ToP1Pipe true) :=
    fun _ => rfl
  have hnil : ∀ f, closedFiles (Fds.start inherited)
      [.pipe .p1ToP2Pipe true, .pipe .p2ToP1Pipe true, .printf "Enter first string: ",
        .scanf, .fork f] = [] :=
    fun _ => closedFiles_nil _ _ rfl
  cases p1
  · rw [closedFiles_nil _ _ (by rfl)]; simp
  cases p2
  · rw [closedFiles_nil _ _ (by rfl)]; simp
  cases f
  · rw [closedFiles_nil _ _ (by rfl)]; simp
  · rw [show mainCalls ⟨true, true, .parent⟩ =
        [.pipe .p1ToP2Pipe true, .pipe .p2ToP1Pipe true, .printf "Enter first string: ",
          .scanf, .fork .parent] ++
        [.close (.readEnd .p1ToP2Pipe), .close (.writeEnd .p2ToP1Pipe),
          .write (.writeEnd .p1ToP2Pipe), .close (.writeEnd .p1ToP2Pipe),
          .read (.readEnd .p2ToP1Pipe), .printf "P1 Final Output: %s\n",
          .close (.readEnd .p2ToP1Pipe), .wait, .ret 0] from rfl,
      closedFiles_append, hnil, List.nil_append, hpre, e]
    exact closes_open_of_four _ _ _ _ r1 w1 r2 w2 hd (by simp) (by simp) _
      (by decide) (by decide) (by decide)
  · rw [show mainCalls ⟨true, true, .child⟩ =
        [.pipe .p1ToP2Pipe true, .pipe .p2ToP1Pipe true, .printf "Enter first string: ",
          .scanf, .fork .child] ++
        [.close (.writeEnd .p1ToP2Pipe), .close (.readEnd .p2ToP1Pipe),
          .read (.readEnd .p1ToP2Pipe), .close (.readEnd .p1ToP2Pipe),
          .printf "P2 Output: %s\n", .printf "Enter second string: ", .scanf,
          .write (.writeEnd .p2ToP1Pipe), .close (.writeEnd .p2ToP1Pipe), .exit 0] from rfl,
      closedFiles_append, hnil, List.nil_append, hpre, e]
    exact closes_open_of_four _ _ _ _ r1 w1 r2 w2 hd (by simp) (by simp) _
      (by decide) (by decide) (by decide)

end PipesProcesses1

namespace PipesProcesses3

open Sys

theorem closedEnds_branches (argv : List String) (k : Kernel) :
    closedEnds (catBranch k) = [.readEnd .pipefd1, .writeEnd .pipefd1]
      ∧ closedEnds (grepBranch argv k)
          = [.writeEnd .pipefd1, .readEnd .pipefd2, .readEnd .pipefd1, .writeEnd .pipefd2]
      ∧ closedEnds (sortBranch k)
          = [.readEnd .pipefd1, .writeEnd .pipefd1, .writeEnd .pipefd2, .readEnd .pipefd2] := by
  obtain ⟨p1, f1, p2, f2, e⟩ := k
  cases e <;> exact ⟨rfl, rfl, rfl⟩

/-- For any set of initially open descriptors, every `close` of the pipeline
acts on an open descriptor. -/
theorem closes_open_main (inherited : List Nat) (argv : List String) (k : Kernel) :
    none ∉ closedFiles (Fds.start inherited) (main argv k) := by
  obtain ⟨r1, w1, r2, w2, -, hd, e1, e2⟩ := after_pipes inherited
  obtain ⟨c1, c2, c3⟩ := closedEnds_branches argv k
  obtain ⟨n1, n2, n3⟩ := branches_no_pipe argv k
  obtain ⟨p1, f1, p2, f2, e⟩ := k
  unfold main
  split
  · rw [closedFiles_nil _ _ (by rfl)]; simp
  cases p1
  · rw [closedFiles_nil _ _ (by rfl)]; simp
  cases f1
  · rw [closedFiles_nil _ _ (by rfl)]; simp
  · show none ∉ closedFiles (Fds.start inherited)
      ([Call.pipe .pipefd1 true, .fork .parent] ++ catBranch ⟨true, .parent, p2, f2, e⟩)
    rw [closedFiles_append,
      closedFiles_nil (Fds.start inherited) [Call.pipe .pipefd1 true, .fork .parent] rfl,
      List.nil_append, e1]
    exact closes_open_of_two _ _ .pipefd1 r1 w1 hd.1 (by simp [firstVar]) _ n1
      (by rw [c1]; decide) (by rw [c1]; decide)
  · cases p2
    · rw [closedFiles_nil _ _ (by rfl)]; simp
    cases f2
    · rw [closedFiles_nil _ _ (by rfl)]; simp
    · show none ∉ closedFiles (Fds.start inherited)
        ([Call.pipe .pipefd1 true, .fork .child, .pipe .pipefd2 true, .fork .parent]
          ++ grepBranch argv ⟨true, .child, true, .parent, e⟩)
      rw [closedFiles_append, closedFiles_nil (Fds.start inherited)
          [Call.pipe .pipefd1 true, .fork .child, .pipe .pipefd2 true, .fork _] rfl,
        List.nil_append, e2]
      exact closes_open_of_four _ _ .pipefd1 .pipefd2 r1 w1 r2 w2 hd (by simp [bothVars])
        (by simp [bothVars]) _ n2 (by rw [c2]; decide) (by rw [c2]; decide)
    · show none ∉ closedFiles (Fds.start inherited)
        ([Call.pipe .pipefd1 true, .fork .child, .pipe .pipefd2 true, .fork .child]
          ++ sortBranch ⟨true, .child, true, .child, e⟩)
      rw [closedFiles_append, closedFiles_nil (Fds.start inherited)
          [Call.pipe .pipefd1 true, .fork .child, .pipe .pipefd2 true, .fork _] rfl,
        List.nil_append, e2]
      exact closes_open_of_four _ _ .pipefd1 .pipefd2 r1 w1 r2 w2 hd (by simp [bothVars])
        (by simp [bothVars]) _ n3 (by rw [c3]; decide) (by rw [c3]; decide)

end PipesProcesses3

namespace PipesProcesses3
open Sys

theorem file_start (inherited : List Nat) (fd : Nat) (h : fd ∈ inherited) :
    (Fds.start inherited).table.file fd = some (.inherited fd) := by
  unfold Fds.start
  simp only
  induction inherited with
  | nil => simp at h
  | cons a rest ih =>
    by_cases ha : a = fd
    · subst ha
      exact file_cons_eq _ _ _
    · rw [List.map_cons, file_cons_ne _ _ _ _ ha]
      exact ih ((List.mem_cons.mp h).resolve_left (Ne.symm ha))

theorem holds_false (t : Table) (f : File) (h : ∀ e ∈ t, e.2 ≠ f) : holds t f = false := by
  unfold holds
  rw [List.any_eq_false]
  intro e he
  simpa using h e he

theorem start_ne_pipeEnd (inherited : List Nat) (f : File) (hf : f.isPipeEnd = true)
    (e : Nat × File) (h : e ∈ (Fds.start inherited).table) : e.2 ≠ f := by
  intro he
  have := start_not_pipeEnd inherited e h
  rw [he, hf] at this
  exact absurd this (by decide)

theorem image_stage (argv : List String) (hargv : argv.length = 2) :
    image (main argv (Stage.kernel true .stage1)) = some ("cat", ["cat", "scores"])
      ∧ image (main argv (Stage.kernel true .stage2)) = some ("grep", ["grep", argv.getD 1 ""])
      ∧ image (main argv (Stage.kernel true .stage3)) = some ("sort", ["sort"]) := by
  rw [main_stage1 argv hargv, main_stage2 argv hargv, main_stage3 argv hargv]
  simp [image, catBranch, grepBranch, sortBranch, afterExec, Stage.kernel]

theorem programOf_eq (scores : List Line) (term : String) :
    programOf scores ("cat", ["cat", "scores"]) = some (fun _ => scores)
      ∧ programOf scores ("grep", ["grep", term])
          = some (fun lines => lines.filter (fun l => term.toList <:+: l))
      ∧ programOf scores ("sort", ["sort"])
          = some (fun lines => lines.insertionSort (fun a b => a ≤ b)) := by
  refine ⟨rfl, ?_, rfl⟩
  simp [programOf]

theorem ne_of_fresh {inherited : List Nat} {x fd : Nat} (hx : x ∉ inherited)
    (hfd : fd ∈ inherited) : x ≠ fd := by
  rintro rfl
  exact hx hfd

/-- What the pipeline prints when descriptors 0 and 1 are open at the start. -/
theorem pipelineOutput_eq (scores : List Line) (inherited : List Nat) (argv : List String)
    (hargv : argv.length = 2) (h0 : 0 ∈ inherited) (h1 : 1 ∈ inherited) :
    pipelineOutput scores inherited argv =
      some ((scores.filter (fun l => (argv.getD 1 "").toList <:+: l)).insertionSort
        (fun a b => a ≤ b)) := by
  obtain ⟨r1, w1, r2, w2, ⟨f1, f2, f3, f4⟩, -, -, -, t1, t2, t3⟩ :=
    stage_fds inherited argv hargv true
  have e1 := t1 (ne_of_fresh f2 h1)
  have e2 := t2 ⟨ne_of_fresh f1 h0, ne_of_fresh f1 h1, ne_of_fresh f4 h0, ne_of_fresh f4 h1⟩
  have e3 := t3 (ne_of_fresh f3 h0)
  obtain ⟨i1, i2, i3⟩ := image_stage argv hargv
  obtain ⟨x1, x2, x3⟩ := programOf_eq scores (argv.getD 1 "")
  have hw1 : ∀ t : Table, (∀ e ∈ t, e ∈ (Fds.start inherited).table) →
      ∀ f : File, f.isPipeEnd = true → ∀ e ∈ t, e.2 ≠ f :=
    fun t ht f hf e he => start_ne_pipeEnd inherited f hf e (ht e he)
  have feed12 : ∀ out, feed (stageFds inherited argv true .stage1).table
      (stageFds inherited argv true .stage2).table
      [(stageFds inherited argv true .stage3).table] out = some out := by
    intro out
    rw [e1, e2, e3]
    unfold feed
    rw [file_cons_eq, file_cons_ne 1 _ _ 0 (by decide), file_cons_eq]
    simp only [true_and, List.all_cons, List.all_nil, Bool.and_true]
    rw [holds_false _ (.pipeWrite .pipefd1), holds_false _ (.pipeWrite .pipefd1)]
    · simp
    · intro e he
      rcases List.mem_cons.mp he with rfl | he
      · simp
      · exact hw1 _ (fun _ hx => mem_without hx) (.pipeWrite .pipefd1) rfl e he
    · intro e he
      rcases List.mem_cons.mp he with rfl | he
      · simp
      · rcases List.mem_cons.mp he with rfl | he
        · simp
        · exact hw1 _ (fun _ hx => mem_without (mem_without hx)) (.pipeWrite .pipefd1) rfl e he
  have feed23 : ∀ out, feed (stageFds inherited argv true .stage2).table
      (stageFds inherited argv true .stage3).table
      [(stageFds inherited argv true .stage1).table] out = some out := by
    intro out
    rw [e1, e2, e3]
    unfold feed
    rw [file_cons_eq, file_cons_eq]
    simp only [true_and, List.all_cons, List.all_nil, Bool.and_true]
    rw [holds_false _ (.pipeWrite .pipefd2), holds_false _ (.pipeWrite .pipefd2)]
    · simp
    · intro e he
      rcases List.mem_cons.mp he with rfl | he
      · simp
      · exact hw1 _ (fun _ hx => mem_without hx) (.pipeWrite .pipefd2) rfl e he
    · intro e he
      rcases List.mem_cons.mp he with rfl | he
      · simp
      · exact hw1 _ (fun _ hx => mem_without hx) (.pipeWrite .pipefd2) rfl e he
  have hout : (stageFds inherited argv true .stage3).table.file 1 = some (.inherited 1) := by
    rw [e3, file_cons_ne 0 _ _ 1 (by decide), file_without_ne _ _ _ (by decide),
      file_start inherited 1 h1]
  unfold pipelineOutput
  simp only [i1, i2, i3, x1, x2, x3, Option.bind, feed12, feed23, hout, if_true]

end PipesProcesses3

/-! ## The exchange of `pipes_processes1.c`: results -/

namespace PipesProcesses1

/-- C2. With `adel` and `hamad` typed at the console, `P2` prints
`adelhoward.edu` as its output and `P1` prints
`adelhoward.eduhamadgobison.org` as its final output. -/
theorem example_adel_hamad :
    firstOutput "adel\nhamad\n".toList = .ok "adelhoward.edu".toList
      ∧ finalOutput "adel\nhamad\n".toList = .ok "adelhoward.eduhamadgobison.org".toList
      ∧ (main "adel\nhamad\n".toList).map (fun r => r.worker.stdout)
          = .ok "P2 Output: adelhoward.edu\nEnter second string: ".toList
      ∧ (main "adel\nhamad\n".toList).map (fun r => r.controller.stdout)
          = .ok "P1 Final Output: adelhoward.eduhamadgobison.org\n".toList := by
  decide

/-- C1, as stated, fails.  With the tokens `adel` and `x|y` (the first without
delimiter and terminator, the second not empty) `P1` prints
`adelhoward.eduxgobison.org`, which drops `|y`.  A second token that holds a
terminator is cut at it.  A first or a second token of 100 bytes overflows a
100-byte array.  A first string with a blank in it is read as two tokens, and
after an empty first line `P1` takes the second line as its token and `P2`
finds the console at its end. -/
theorem final_output_counterexample :
    (scanfToken "adel\nx|y\n".toList = (some "adel".toList, "\nx|y\n".toList)
      ∧ scanfToken "\nx|y\n".toList = (some "x|y".toList, "\n".toList)
      ∧ finalOutput "adel\nx|y\n".toList = .ok "adelhoward.eduxgobison.org".toList
      ∧ finalOutput "adel\nx|y\n".toList ≠
          .ok ("adel".toList ++ "howard.edu".toList ++ "x|y".toList ++ "gobison.org".toList))
    ∧ (scanfToken ("adel\nx".toList ++ NUL :: "y\n".toList)
          = (some "adel".toList, "\nx".toList ++ NUL :: "y\n".toList)
      ∧ scanfToken ("\nx".toList ++ NUL :: "y\n".toList)
          = (some ("x".toList ++ NUL :: "y".toList), "\n".toList)
      ∧ finalOutput ("adel\nx".toList ++ NUL :: "y\n".toList)
          = .ok "adelhoward.eduxgobison.org".toList)
    ∧ finalOutput (List.replicate 100 'a' ++ "\nhamad\n".toList) = .error .overflow
    ∧ finalOutput ("adel\n".toList ++ List.replicate 100 'b' ++ "\n".toList) = .error .overflow
    ∧ finalOutput "ad el\nhamad\n".toList = .ok "adhoward.eduelgobison.org".toList
    ∧ finalOutput "\nhamad\n".toList = .error .unterminated := by
  decide

/-- C1, amended.  Let `a` and `b` be the tokens the two `%s` conversions read
from the console, each at most 99 bytes long and each without `|` and without
terminator.  Then `P2` prints `a ++ "howard.edu"`, and `P1` prints exactly
`a ++ "howard.edu" ++ b ++ "gobison.org"` as its final output. -/
theorem final_output_of_tokens (stdin a rest b rest2 : List Char)
    (h1 : scanfToken stdin = (some a, rest)) (h2 : scanfToken rest = (some b, rest2))
    (ha : a.length ≤ 99) (hb : b.length ≤ 99)
    (haN : NUL ∉ a) (hbN : NUL ∉ b) (haD : '|' ∉ a) (hbD : '|' ∉ b) :
    finalOutput stdin = .ok (a ++ "howard.edu".toList ++ b ++ "gobison.org".toList)
      ∧ firstOutput stdin = .ok (a ++ "howard.edu".toList)
      ∧ (main stdin).map (fun r => r.controller.stdout)
          = .ok ("P1 Final Output: ".toList
              ++ (a ++ "howard.edu".toList ++ b ++ "gobison.org".toList) ++ "\n".toList) := by
  obtain ⟨hfo, hfin⟩ := final_not_mem a b haN hbN
  unfold finalOutput firstOutput
  rw [main_eq stdin a rest b rest2 h1 h2 ha hb haN hbN haD hbD]
  simp only [Except.bind, Except.map, cstr_store _ hfin, cstr_store _ hfo, and_self]

theorem final_output_of_tokens_witness :
    finalOutput "bison\n2024\n".toList
      = .ok ("bison".toList ++ "howard.edu".toList ++ "2024".toList ++ "gobison.org".toList) :=
  (final_output_of_tokens "bison\n2024\n".toList "bison".toList "\n2024\n".toList
    "2024".toList "\n".toList (by decide) (by decide) (by decide) (by decide)
    (by decide) (by decide) (by decide) (by decide)).1

/-- C3, as stated, fails.  On the received message `abc` with its terminator,
which holds no `|`, the split does not fail: it gives `parts[0] = "abc"` and
`parts[1] = NULL`.  `P1` goes on, and `strcat(finalOutput, parts[1])` gets the
null pointer: undefined behaviour, not a reported error. -/
theorem missing_delimiter_counterexample :
    '|' ∉ "abc".toList ++ [NUL]
      ∧ splitCombined (read ("abc".toList ++ [NUL]) 300)
          = .ok (some ("abc".toList ++ [NUL]), none)
      ∧ strcpy 400 (some ("abc".toList ++ [NUL])) = .ok ("abc".toList ++ [NUL])
      ∧ controllerFinish ("abc".toList ++ [NUL]) = .error .nullPointer := by
  decide

/-- C3, amended.  On every received message without `|` the code has no
check and reports nothing.  `P1` never gets to print a final output.  When the
300 bytes read hold a terminator, the split itself succeeds with
`parts[1] = NULL`, and `P1` then hands a null pointer to `strcpy` or `strcat`
(undefined behaviour).  When they hold none, `strtok` reads past the bytes
received (undefined behaviour). -/
theorem missing_delimiter_faults (pipe : List Char) (h : '|' ∉ pipe) :
    (∀ c, controllerFinish pipe ≠ .ok c)
      ∧ (NUL ∈ read pipe 300 →
          (∃ p0, splitCombined (read pipe 300) = .ok (p0, none))
            ∧ controllerFinish pipe = .error .nullPointer)
      ∧ (NUL ∉ read pipe 300 → controllerFinish pipe = .error .unterminated) := by
  obtain ⟨hno, hyes⟩ := controllerFinish_no_delimiter pipe h
  refine ⟨?_, hyes, hno⟩
  intro c hc
  by_cases hN : NUL ∈ read pipe 300
  · rw [(hyes hN).2] at hc
    cases hc
  · rw [hno hN] at hc
    cases hc

theorem missing_delimiter_faults_witness :
    controllerFinish ("adelhoward.edu".toList ++ [NUL]) = .error .nullPointer :=
  ((missing_delimiter_faults ("adelhoward.edu".toList ++ [NUL]) (by decide)).2.1
    (by decide)).2

/-- C10. Let `a` and `b` be the tokens the two `%s` conversions read from the
console, each at most 99 bytes long.  Then no array overflows and no `read`
cuts a message short: `userInput` and `secondInput` hold the tokens and their
terminators in 100 bytes; `receivedString` holds all the bytes `P1` wrote, in
at most 100 bytes; `firstOutput` takes at most 200 bytes and `combinedString`,
which is `firstOutput`, `|` and the second input, at most 300; `P2` writes the
whole of `combinedString`, and the `read` of 300 bytes in `P1` gets all of it;
`P1` either hands a null pointer to `strcpy` or `strcat` (a second input
without text between delimiters) or fills `finalOutput` with at most 400
bytes.  For tokens without terminator the arrays hold `a`,
`a ++ "howard.edu"` and `a ++ "howard.edu" ++ "|" ++ b`. -/
theorem buffers_fit (stdin a rest b rest2 : List Char)
    (h1 : scanfToken stdin = (some a, rest)) (h2 : scanfToken rest = (some b, rest2))
    (ha : a.length ≤ 99) (hb : b.length ≤ 99) :
    ∃ (userInput p1ToP2 : List Char) (w : Worker),
      scanf 100 [] stdin = .ok (userInput, rest)
        ∧ userInput = a ++ [NUL] ∧ userInput.length ≤ 100
        ∧ writeString userInput = .ok p1ToP2
        ∧ worker p1ToP2 rest = .ok w
        ∧ w.receivedString = p1ToP2 ∧ w.receivedString.length ≤ 100
        ∧ w.secondInput = b ++ [NUL] ∧ w.secondInput.length ≤ 100
        ∧ w.firstOutput.length ≤ 200
        ∧ sprintf 300 w.firstOutput w.secondInput = .ok w.combinedString
        ∧ w.combinedString.length ≤ 300
        ∧ w.sent = w.combinedString
        ∧ read w.sent 300 = w.sent
        ∧ (controllerFinish w.sent = .error .nullPointer
            ∨ ∃ c, controllerFinish w.sent = .ok c ∧ c.combinedString = w.sent
                ∧ c.finalOutput.length ≤ 400)
        ∧ (NUL ∉ a → NUL ∉ b →
            cstr w.receivedString = .ok a
              ∧ cstr w.firstOutput = .ok (a ++ "howard.edu".toList)
              ∧ cstr w.combinedString = .ok (a ++ "howard.edu".toList ++ '|' :: b)) := by
  have hlenH : "howard.edu".toList.length = 10 := rfl
  obtain ⟨u, hu⟩ := cstr_token a []
  obtain ⟨v, hv⟩ := cstr_token b []
  have hxN : NUL ∉ a.takeWhile (fun c => c != NUL) := not_mem_takeWhile NUL a
  have hyN : NUL ∉ b.takeWhile (fun c => c != NUL) := not_mem_takeWhile NUL b
  have hxlen : (a.takeWhile (fun c => c != NUL)).length ≤ a.length :=
    takeWhile_length_le _ _
  have hylen : (b.takeWhile (fun c => c != NUL)).length ≤ b.length :=
    takeWhile_length_le _ _
  have hfo : NUL ∉ a.takeWhile (fun c => c != NUL) ++ "howard.edu".toList := by
    simp only [List.mem_append, not_or]; exact ⟨hxN, howard_not_mem NUL (Or.inl rfl)⟩
  have hcomb : NUL ∉ a.takeWhile (fun c => c != NUL) ++ "howard.edu".toList
      ++ '|' :: b.takeWhile (fun c => c != NUL) := by
    simp only [List.mem_append, List.mem_cons, not_or]
    exact ⟨⟨hxN, howard_not_mem NUL (Or.inl rfl)⟩, by decide, hyN⟩
  have hcomblen : (a.takeWhile (fun c => c != NUL) ++ "howard.edu".toList
      ++ '|' :: b.takeWhile (fun c => c != NUL)).length ≤ 209 := by
    simp only [List.length_append, List.length_cons, hlenH]; omega
  have hw := worker_eq (a.takeWhile (fun c => c != NUL)) b [] rest rest2 h2 (by omega) hb hxN
  have hread : read (a.takeWhile (fun c => c != NUL) ++ [NUL]) 100
      = a.takeWhile (fun c => c != NUL) ++ [NUL] :=
    read_whole _ 100 (by simp only [List.length_append, List.length_cons, List.length_nil]; omega)
  rw [hread] at hw
  refine ⟨a ++ [NUL], a.takeWhile (fun c => c != NUL) ++ [NUL], _, scanf_some [] h1 ha, rfl,
    ?_, ?_, hw, rfl, ?_, rfl, ?_, ?_, ?_, ?_, rfl, ?_, ?_, ?_⟩
  · simp only [List.length_append, List.length_cons, List.length_nil]; omega
  · unfold writeString
    rw [hu, cstr_terminated _ u hxN]
    rfl
  · simp only [List.length_append, List.length_cons, List.length_nil]; omega
  · simp only [List.length_append, List.length_cons, List.length_nil]; omega
  · simp only [List.length_append, List.length_cons, List.length_nil, hlenH]; omega
  · simp only [sprintf, cstr_store _ hfo, Except.bind]
    rw [hv, cstr_terminated _ v hyN]
    simp only [store]
    rw [if_pos (by omega)]
  · simp only [List.length_append, List.length_cons, List.length_nil] at hcomblen ⊢
    omega
  · exact read_whole _ 300
      (by simp only [List.length_append, List.length_cons, List.length_nil] at hcomblen ⊢
          omega)
  · exact controllerFinish_cases _ hcomb (by omega)
  · intro haN hbN
    simp only [takeWhile_all a (ne_of_not_mem haN), takeWhile_all b (ne_of_not_mem hbN)]
    have hfo2 : NUL ∉ a ++ "howard.edu".toList := (final_not_mem a b haN hbN).1
    have hcomb2 : NUL ∉ a ++ "howard.edu".toList ++ '|' :: b := by
      simp only [List.mem_append, List.mem_cons, not_or]
      exact ⟨⟨haN, howard_not_mem NUL (Or.inl rfl)⟩, by decide, hbN⟩
    exact ⟨cstr_store a haN, cstr_store _ hfo2, cstr_store _ hcomb2⟩

theorem buffers_fit_witness :
    ∃ (userInput p1ToP2 : List Char) (w : Worker),
      scanf 100 [] "adel\nhamad\n".toList = .ok (userInput, "\nhamad\n".toList)
        ∧ userInput = "adel".toList ++ [NUL] ∧ userInput.length ≤ 100
        ∧ writeString userInput = .ok p1ToP2
        ∧ worker p1ToP2 "\nhamad\n".toList = .ok w
        ∧ w.receivedString = p1ToP2 ∧ w.receivedString.length ≤ 100 := by
  obtain ⟨u, p, w, h⟩ := buffers_fit "adel\nhamad\n".toList "adel".toList "\nhamad\n".toList
    "hamad".toList "\n".toList (by decide) (by decide) (by decide) (by decide)
  exact ⟨u, p, w, h.1, h.2.1, h.2.2.1, h.2.2.2.1, h.2.2.2.2.1, h.2.2.2.2.2.1, h.2.2.2.2.2.2.1⟩

end PipesProcesses1

/-! ## The paths of `main`: results -/

namespace PipesProcesses3

open Sys

/-- C5. With an argument count other than two (`argv[0]` and the search
term), `main` prints the usage line and exits with `EXIT_FAILURE`, which is not
zero, whatever the kernel would answer; it makes no `pipe`, `fork`, `close`,
`dup2` or `execlp` call. -/
theorem wrong_argc_exits (argv : List String) (k : Kernel) (h : argv.length ≠ 2) :
    main argv k =
        [.fprintfStderr ("Usage: " ++ argv.headD "(null)" ++ " <search_term>\n"),
         .exit EXIT_FAILURE]
      ∧ EXIT_FAILURE ≠ 0
      ∧ ∀ c ∈ main argv k, c.isOrchestration = false := by
  have hm : main argv k =
      [.fprintfStderr ("Usage: " ++ argv.headD "(null)" ++ " <search_term>\n"),
       .exit EXIT_FAILURE] := by
    unfold main
    rw [if_pos h]
  refine ⟨hm, by decide, ?_⟩
  intro c hc
  rw [hm] at hc
  simp only [List.mem_cons, List.mem_singleton, List.not_mem_nil, or_false] at hc
  rcases hc with rfl | rfl <;> rfl

theorem wrong_argc_exits_witness :
    ["pipes_processes3"].length ≠ 2
      ∧ main ["pipes_processes3"] ⟨true, .parent, true, .parent, true⟩ =
          [.fprintfStderr ("Usage: " ++ "pipes_processes3" ++ " <search_term>\n"),
           .exit EXIT_FAILURE] :=
  ⟨by decide, (wrong_argc_exits ["pipes_processes3"] ⟨true, .parent, true, .parent, true⟩
    (by decide)).1⟩

/-- C7. A process that reaches its `execlp` (the parent as Stage1, the first
child as Stage2, the grandchild as Stage3) and sees it return makes exactly two
more calls: `perror` and `exit(EXIT_FAILURE)`, with `EXIT_FAILURE` not zero.
No `close`, `dup2`, `fork`, `pipe` or `execlp` follows, and no path of `main`
returns from `main`. -/
theorem exec_failure_exits (argv : List String) (k : Kernel)
    (hargv : argv.length = 2) (hpipe : k.pipe1 = true)
    (hreach : k.fork1 = .parent ∨ (k.fork1 = .child ∧ k.pipe2 = true ∧ k.fork2 ≠ .failed))
    (hfail : k.exec = false) :
    (∃ pre file args text,
        main argv k = pre ++ [.execlp file args false, .perror text, .exit EXIT_FAILURE]
          ∧ ∀ c ∈ pre, ∀ f a ok, c ≠ .execlp f a ok)
      ∧ EXIT_FAILURE ≠ 0
      ∧ ∀ n, Call.ret n ∉ main argv k := by
  obtain ⟨p1, f1, p2, f2, e⟩ := k
  simp only at hpipe hreach hfail
  subst hpipe hfail
  refine ⟨?_, by decide, ?_⟩
  · rcases hreach with rfl | ⟨rfl, rfl, h2⟩
    · refine ⟨[.pipe .pipefd1 true, .fork .parent, .close (.readEnd .pipefd1),
        .dup2 (.writeEnd .pipefd1) .STDOUT_FILENO, .close (.writeEnd .pipefd1)],
        "cat", ["cat", "scores"], "execlp cat", ?_, ?_⟩
      · simp [main, hargv, catBranch, afterExec]
      · simp
    · cases f2 with
      | failed => exact absurd rfl h2
      | parent =>
        refine ⟨[.pipe .pipefd1 true, .fork .child, .pipe .pipefd2 true, .fork .parent,
          .close (.writeEnd .pipefd1), .close (.readEnd .pipefd2),
          .dup2 (.readEnd .pipefd1) .STDIN_FILENO, .dup2 (.writeEnd .pipefd2) .STDOUT_FILENO,
          .close (.readEnd .pipefd1), .close (.writeEnd .pipefd2)],
          "grep", ["grep", argv.getD 1 ""], "execlp grep", ?_, ?_⟩
        · simp [main, hargv, grepBranch, afterExec]
        · simp
      | child =>
        refine ⟨[.pipe .pipefd1 true, .fork .child, .pipe .pipefd2 true, .fork .child,
          .close (.readEnd .pipefd1), .close (.writeEnd .pipefd1), .close (.writeEnd .pipefd2),
          .dup2 (.readEnd .pipefd2) .STDIN_FILENO, .close (.readEnd .pipefd2)],
          "sort", ["sort"], "execlp sort", ?_, ?_⟩
        · simp [main, hargv, sortBranch, afterExec]
        · simp
  · intro n
    unfold main
    rw [if_neg (by simp [hargv])]
    cases f1 <;> cases p2 <;> cases f2 <;>
      simp [sortBranch, grepBranch, catBranch, afterExec]

theorem exec_failure_exits_witness :
    (∃ pre file args text,
        main ["pipes_processes3", "alice"] (Stage.kernel false .stage2)
            = pre ++ [.execlp file args false, .perror text, .exit EXIT_FAILURE]
          ∧ ∀ c ∈ pre, ∀ f a ok, c ≠ .execlp f a ok) :=
  (exec_failure_exits ["pipes_processes3", "alice"] (Stage.kernel false .stage2)
    rfl rfl (Or.inr ⟨rfl, rfl, by decide⟩) rfl).1

theorem closedFiles_main_argv (prog term : String) (k : Kernel) :
    closedFiles (Fds.start [0, 1, 2]) (main [prog, term] k)
      = closedFiles (Fds.start [0, 1, 2]) (main ["pipes_processes3", "alice"] k) := by
  obtain ⟨p1, f1, p2, f2, e⟩ := k
  cases p1 <;> cases f1 <;> cases p2 <;> cases f2 <;> cases e <;> rfl

theorem closedFiles_main_standard (k : Kernel) :
    none ∉ closedFiles (Fds.start [0, 1, 2]) (main ["pipes_processes3", "alice"] k)
      ∧ (closedFiles (Fds.start [0, 1, 2]) (main ["pipes_processes3", "alice"] k)).Nodup := by
  obtain ⟨p1, f1, p2, f2, e⟩ := k
  cases p1 <;> cases f1 <;> cases p2 <;> cases f2 <;> cases e <;> decide

/-- C8. On every path of `main` of both programs, and on every initial part
of such a path (a process that stops early), every descriptor handed to
`close` is an element of a pipe array, and no element is handed to `close`
twice.  For any set of descriptors open at the start, every `close` on every
path acts on a descriptor that is open at that moment: no handle is closed
when it is already closed.  For a program started with descriptors 0, 1 and 2
open, the pipe ends released on a path are pairwise different. -/
theorem no_double_close :
    (∀ (k : PipesProcesses1.Kernel1) (t : List Call),
        t <+: PipesProcesses1.mainCalls k →
          (closedEnds t).Nodup ∧ ∀ d ∈ closedEnds t, d.isArrayElement = true)
      ∧ (∀ (argv : List String) (k : Kernel) (t : List Call),
        t <+: main argv k →
          (closedEnds t).Nodup ∧ ∀ d ∈ closedEnds t, d.isArrayElement = true)
      ∧ (∀ (inherited : List Nat) (k : PipesProcesses1.Kernel1),
          none ∉ closedFiles (Fds.start inherited) (PipesProcesses1.mainCalls k))
      ∧ (∀ (inherited : List Nat) (argv : List String) (k : Kernel),
          none ∉ closedFiles (Fds.start inherited) (main argv k))
      ∧ (∀ k : PipesProcesses1.Kernel1,
          (closedFiles (Fds.start [0, 1, 2]) (PipesProcesses1.mainCalls k)).Nodup)
      ∧ (∀ (prog term : String) (k : Kernel),
          (closedFiles (Fds.start [0, 1, 2]) (main [prog, term] k)).Nodup) := by
  refine ⟨?_, ?_, ?_, ?_, ?_, ?_⟩
  · intro k t h
    exact ⟨closedEnds_nodup_of_initial h (PipesProcesses1.closedEnds_mainCalls_nodup k),
      fun d hd => PipesProcesses1.closedEnds_mainCalls_array k d (closedEnds_of_initial h d hd)⟩
  · intro argv k t h
    exact ⟨closedEnds_nodup_of_initial h (closedEnds_main_nodup argv k),
      fun d hd => closedEnds_main_array argv k d (closedEnds_of_initial h d hd)⟩
  · exact PipesProcesses1.closes_open_mainCalls
  · exact closes_open_main
  · intro k
    exact (PipesProcesses1.closedFiles_mainCalls_standard k).2
  · intro prog term k
    rw [closedFiles_main_argv]
    exact (closedFiles_main_standard k).2

end PipesProcesses3

/-! ## Order of allocation and duplication, and the data flow of the pipeline -/

namespace PipesProcesses3

open Sys

theorem holds_cons (e : Nat × File) (t : Table) (f : File) :
    holds (e :: t) f = (decide (e.2 = f) || holds t f) := by
  simp [holds]

theorem holds_start (inherited : List Nat) (f : File) (hf : f.isPipeEnd = true) :
    holds (Fds.start inherited).table f = false :=
  holds_false _ _ (start_ne_pipeEnd inherited f hf)

theorem no_double_close_witness :
    (closedEnds (PipesProcesses1.mainCalls ⟨true, true, .parent⟩)).Nodup
      ∧ (closedEnds (main ["pipes_processes3", "alice"] (Stage.kernel true .stage2))).Nodup :=
  ⟨(no_double_close.1 _ _ ⟨[], List.append_nil _⟩).1,
   (no_double_close.2.1 _ _ _ ⟨[], List.append_nil _⟩).1⟩

/-- C9, as stated, fails for the pipeline.  On the path of the first child
the call `pipe(pipefd2)` comes after the first `fork`, not before it, and the
process created by the first `fork` starts with both ends of `pipefd1` and
with no end of `pipefd2`. -/
theorem pipe_after_fork_counterexample :
    Call.pipe .pipefd2 true ∈
        afterFork (main ["pipes_processes3", "alice"] (Stage.kernel true .stage2))
      ∧ Call.pipe .pipefd2 true ∉
        beforeFork (main ["pipes_processes3", "alice"] (Stage.kernel true .stage2))
      ∧ (atForks (Fds.start [0, 1, 2])
          (main ["pipes_processes3", "alice"] (Stage.kernel true .stage2))).map
            (fun s => heldEnds s.table)
          = [[true, true, false, false], [true, true, true, true]] := by
  decide

/-- C9, amended.  In the exchange no `pipe` call follows the `fork`, and the
child starts with both ends of both pipes.  In the pipeline `pipefd1` is never
allocated after the first `fork`, `pipefd2` is never allocated before the first
`fork`, and no pipe is allocated after the second `fork`: the first child
allocates `pipefd2` itself.  The process created by the first `fork` starts
with both ends of `pipefd1` only, the process created by the second `fork`
starts with both ends of both pipes, and the parent (Stage1) holds no end of
`pipefd2` at its `fork` or after its calls. -/
theorem pipes_before_forks :
    (∀ k : PipesProcesses1.Kernel1,
        ∀ c ∈ afterFork (PipesProcesses1.mainCalls k), c.isPipe = false)
      ∧ (∀ (inherited : List Nat) (r : ForkResult),
          (atForks (Fds.start inherited) (PipesProcesses1.mainCalls ⟨true, true, r⟩)).map
            (fun s => heldEnds1 s.table) = [[true, true, true, true]])
      ∧ (∀ (argv : List String) (k : Kernel),
          (∀ ok, Call.pipe .pipefd1 ok ∉ afterFork (main argv k))
            ∧ (∀ ok, Call.pipe .pipefd2 ok ∉ beforeFork (main argv k))
            ∧ ∀ c ∈ afterFork (afterFork (main argv k)), c.isPipe = false)
      ∧ (∀ (inherited : List Nat) (prog term : String) (e : Bool),
          (atForks (Fds.start inherited) (main [prog, term] (Stage.kernel e .stage2))).map
              (fun s => heldEnds s.table)
            = [[true, true, false, false], [true, true, true, true]]
          ∧ (atForks (Fds.start inherited) (main [prog, term] (Stage.kernel e .stage3))).map
              (fun s => heldEnds s.table)
            = [[true, true, false, false], [true, true, true, true]]
          ∧ (atForks (Fds.start inherited) (main [prog, term] (Stage.kernel e .stage1))).map
              (fun s => heldEnds s.table)
            = [[true, true, false, false]]
          ∧ (∀ c ∈ main [prog, term] (Stage.kernel e .stage1),
              c ≠ .pipe .pipefd2 true)) := by
  refine ⟨?_, ?_, ?_, ?_⟩
  · intro k
    obtain ⟨p1, p2, f⟩ := k
    cases p1 <;> cases p2 <;> cases f <;> decide
  · intro inherited r
    cases r <;>
      simp [PipesProcesses1.mainCalls, atForks, Fds.step, heldEnds1, holds_cons, holds_start,
        File.isPipeEnd]
  · intro argv k
    obtain ⟨p1, f1, p2, f2, e⟩ := k
    unfold main
    split
    · simp [afterFork, beforeFork, Call.isFork, Call.isPipe]
    · cases p1 <;> cases f1 <;> cases p2 <;> cases f2 <;> cases e <;>
        simp [afterFork, beforeFork, Call.isFork, Call.isPipe, sortBranch, grepBranch,
          catBranch, afterExec]
  · intro inherited prog term e
    cases e <;>
      simp [main, Stage.kernel, atForks, Fds.step, heldEnds, holds_cons, holds_start,
        File.isPipeEnd, sortBranch, grepBranch, catBranch, afterExec]

theorem pipes_before_forks_witness :
    (∀ c ∈ afterFork (PipesProcesses1.mainCalls ⟨true, true, .child⟩), c.isPipe = false)
      ∧ (atForks (Fds.start [0, 1, 2]) (PipesProcesses1.mainCalls ⟨true, true, .child⟩)).map
            (fun s => heldEnds1 s.table) = [[true, true, true, true]] :=
  ⟨pipes_before_forks.1 _, pipes_before_forks.2.1 _ _⟩

/-- C4. Started with descriptors 0, 1 and 2 open, on the source lines
`alice 10`, `bob 20`, `alice 30` and the search term `alice`, the pipeline
writes `alice 10`, `alice 30` to the standard output it was started with.  In
general, for a program started with at least descriptors 0 and 1 open, any
source lines and any search term, the output exists, is sorted, and is a
rearrangement of exactly the source lines that contain the term.  The three
programs are the models of `cat scores`, `grep term` and `sort`; which
program runs in which stage, and on which descriptors, comes from the calls of
`main`. -/
theorem pipeline_sorted_matches :
    pipelineOutput ["alice 10".toList, "bob 20".toList, "alice 30".toList] [0, 1, 2]
        ["pipes_processes3", "alice"] = some ["alice 10".toList, "alice 30".toList]
      ∧ ∀ (scores : List Line) (inherited : List Nat) (prog term : String),
          0 ∈ inherited → 1 ∈ inherited →
          ∃ out, pipelineOutput scores inherited [prog, term] = some out
            ∧ out.Sorted (fun a b => a ≤ b)
            ∧ out.Perm (scores.filter (fun l => term.toList <:+: l)) := by
  refine ⟨by decide, ?_⟩
  intro scores inherited prog term h0 h1
  refine ⟨_, pipelineOutput_eq scores inherited [prog, term] rfl h0 h1, ?_, ?_⟩
  · exact List.sorted_insertionSort _ _
  · exact List.perm_insertionSort _ _

theorem pipeline_sorted_matches_witness :
    ∃ out, pipelineOutput ["bob 20".toList, "alice 30".toList, "alice 10".toList] [0, 1, 2, 7]
          ["pipes_processes3", "alice"] = some out
      ∧ out.Sorted (fun a b => a ≤ b)
      ∧ out.Perm (["bob 20".toList, "alice 30".toList, "alice 10".toList].filter
          (fun l => "alice".toList <:+: l)) :=
  pipeline_sorted_matches.2 _ [0, 1, 2, 7] "pipes_processes3" "alice" (by decide) (by decide)

end PipesProcesses3
